import Mathlib

/-!
Verification of the crafting planner (`craft_planner.py`).

The program is embedded shallowly:

* `State` models the Python `State` class, a thin wrapper around an
  `OrderedDict`.  All states in one search share one fixed key order (they are
  produced from the initial state by `copy()` followed by `+=`/`-=` updates on
  existing keys), so a state is faithfully the list `tuple(self.items())`
  of key/value pairs, which is exactly what drives the class's `__hash__`,
  `__eq__` and `__lt__`.
* Dictionary subscripting `d[k]` raises `KeyError` on a missing key; fallible
  operations therefore return `Option`, with `none` modelling the raised
  exception.
* `check`, `effect` and `is_goal` are the closures produced by
  `make_checker`, `make_effector` and `make_goal_checker`, with the captured
  rule passed explicitly.
* Quantities are integers; rule costs (`Time`) and clock readings are
  integers (the repository's recipe times are integral, and the engine only
  adds and compares them); priorities are `WithTop ℤ`, where `⊤` models the
  float `inf` a heuristic may return.
-/

namespace CraftPlanner

abbrev Item := String

abbrev Qty := Int

/-- The ordered key/value pairs of a Python `State` (`tuple(self.items())`). -/
abbrev State := List (Item × Qty)

/-- Dictionary lookup `s[it]`: the value at the first matching key, `none`
when the key is absent (a `KeyError` in Python). -/
def getItem : State → Item → Option Qty
  | [], _ => none
  | (k, v) :: rest, it => if k = it then some v else getItem rest it

/-- Dictionary update `s[it] += d` on an existing key (in-place addition on a
fresh copy); `none` when the key is absent (a `KeyError` in Python). -/
def addItem : State → Item → Qty → Option State
  | [], _, _ => none
  | (k, v) :: rest, it, d =>
    if k = it then some ((k, v + d) :: rest)
    else (addItem rest it d).map (fun s => (k, v) :: s)

/-- One raw crafting rule together with its name, as compiled in `__main__`:
the optional `Consumes` and `Requires` clauses, the mandatory `Produces`
clause, and the `Time` cost.  `Requires` values are presence flags; the code
only iterates its keys, so only the keys are kept. -/
structure Recipe where
  name : String
  produces : List (Item × Qty)
  consumes : Option (List (Item × Qty))
  requires : Option (List Item)
  time : ℤ
deriving DecidableEq

/-- The `Consumes` loop of `check`: fails with `False` as soon as the state
holds less than a consumed amount; `KeyError` (`none`) on a missing key. -/
def checkConsumes (s : State) : List (Item × Qty) → Option Bool
  | [] => some true
  | (it, amt) :: rest =>
    match getItem s it with
    | none => none
    | some q => if q < amt then some false else checkConsumes s rest

/-- The `Requires` loop of `check`: fails with `False` as soon as the state
holds less than one of a required item; `KeyError` (`none`) on a missing key. -/
def checkRequires (s : State) : List Item → Option Bool
  | [] => some true
  | it :: rest =>
    match getItem s it with
    | none => none
    | some q => if q < 1 then some false else checkRequires s rest

/-- The feasibility predicate produced by `make_checker(rule)`: the
`Consumes` clause is checked first (when present), then the `Requires`
clause (when present). -/
def check (r : Recipe) (s : State) : Option Bool :=
  match r.consumes with
  | some cs =>
    match checkConsumes s cs with
    | none => none
    | some false => some false
    | some true =>
      match r.requires with
      | none => some true
      | some rq => checkRequires s rq
  | none =>
    match r.requires with
    | none => some true
    | some rq => checkRequires s rq

/-- Sequential `next_state[k] += v` updates, one per pair of the list. -/
def addAll : State → List (Item × Qty) → Option State
  | s, [] => some s
  | s, (it, amt) :: rest =>
    match addItem s it amt with
    | none => none
    | some s2 => addAll s2 rest

/-- Sequential `next_state[k] -= v` updates, one per pair of the list. -/
def subAll : State → List (Item × Qty) → Option State
  | s, [] => some s
  | s, (it, amt) :: rest =>
    match addItem s it (-amt) with
    | none => none
    | some s2 => subAll s2 rest

/-- The effect function produced by `make_effector(rule)`: copy the state,
add every `Produces` amount, then subtract every `Consumes` amount (the
copy is modelled by value semantics: the input list is never mutated). -/
def effect (r : Recipe) (s : State) : Option State :=
  match addAll s r.produces with
  | none => none
  | some s2 =>
    match r.consumes with
    | none => some s2
    | some cs => subAll s2 cs

/-- The goal predicate produced by `make_goal_checker(goal)`.  The Python
test is `if state[item] < goal[item] or item not in state`: the subscript
`state[item]` is evaluated first, so a missing key raises `KeyError`
(`none`) and the `item not in state` disjunct can never change the result. -/
def is_goal : List (Item × Qty) → State → Option Bool
  | [], _ => some true
  | (it, req) :: rest, s =>
    match getItem s it with
    | none => none
    | some q => if q < req then some false else is_goal rest s

/-- Net amount a key/amount list contributes to one item (a Python dict has
each key once; a duplicated key would contribute each occurrence, exactly as
the sequential `+=` loop would). -/
def listDelta : List (Item × Qty) → Item → Qty
  | [], _ => 0
  | (k, v) :: rest, it => (if k = it then v else 0) + listDelta rest it

theorem getItem_isSome_iff (s : State) (it : Item) :
    (getItem s it).isSome ↔ it ∈ s.map Prod.fst := by
  induction s with
  | nil => simp [getItem]
  | cons hd tl ih =>
    by_cases h : hd.1 = it
    · simp [getItem, h]
    · simpa [getItem, h, Ne.symm h] using ih

theorem addItem_eq_none_iff (s : State) (it : Item) (d : Qty) :
    addItem s it d = none ↔ getItem s it = none := by
  induction s with
  | nil => simp [addItem, getItem]
  | cons hd tl ih =>
    by_cases h : hd.1 = it
    · cases hd; simp_all [addItem, getItem]
    · cases hd
      simp only [addItem, getItem, h, if_neg]
      cases htl : addItem tl it d <;> cases g : getItem tl it <;> simp_all

theorem getItem_addItem (s s2 : State) (it : Item) (d : Qty)
    (h : addItem s it d = some s2) (it2 : Item) :
    getItem s2 it2 =
      if it2 = it then (getItem s it2).map (· + d) else getItem s it2 := by
  induction s generalizing s2 with
  | nil => simp [addItem] at h
  | cons hd tl ih =>
    cases hd with
    | mk k v =>
      by_cases hk : k = it
      · subst hk
        simp only [addItem, if_pos rfl] at h
        cases h
        by_cases h2 : it2 = k
        · subst h2
          simp [getItem]
        · have hne : ¬ (k = it2) := fun hh => h2 hh.symm
          simp [getItem, hne, h2]
      · simp only [addItem, if_neg hk] at h
        cases htl : addItem tl it d with
        | none => rw [htl] at h; simp at h
        | some tl2 =>
          rw [htl] at h
          simp only [Option.map] at h
          cases h
          have ihres := ih tl2 htl
          by_cases h3 : k = it2
          · subst h3
            have h2 : ¬ (k = it) := hk
            simp [getItem, fun hh : k = it => hk hh, Ne.symm hk]
          · simp only [getItem, if_neg h3]
            exact ihres

theorem addItem_keys (s s2 : State) (it : Item) (d : Qty)
    (h : addItem s it d = some s2) : s2.map Prod.fst = s.map Prod.fst := by
  induction s generalizing s2 with
  | nil => simp [addItem] at h
  | cons hd tl ih =>
    cases hd with
    | mk k v =>
      by_cases hk : k = it
      · subst hk
        simp only [addItem, if_pos rfl] at h
        cases h
        simp
      · simp only [addItem, if_neg hk] at h
        cases htl : addItem tl it d with
        | none => rw [htl] at h; simp at h
        | some tl2 =>
          rw [htl] at h
          simp only [Option.map] at h
          cases h
          simp [ih tl2 htl]

theorem addAll_keys (s s2 : State) (l : List (Item × Qty))
    (h : addAll s l = some s2) : s2.map Prod.fst = s.map Prod.fst := by
  induction l generalizing s with
  | nil => simp [addAll] at h; rw [h]
  | cons hd tl ih =>
    simp only [addAll] at h
    cases ha : addItem s hd.1 hd.2 with
    | none => rw [ha] at h; simp at h
    | some s3 =>
      rw [ha] at h
      exact (ih s3 h).trans (addItem_keys s s3 hd.1 hd.2 ha)

theorem subAll_keys (s s2 : State) (l : List (Item × Qty))
    (h : subAll s l = some s2) : s2.map Prod.fst = s.map Prod.fst := by
  induction l generalizing s with
  | nil => simp [subAll] at h; rw [h]
  | cons hd tl ih =>
    simp only [subAll] at h
    cases ha : addItem s hd.1 (-hd.2) with
    | none => rw [ha] at h; simp at h
    | some s3 =>
      rw [ha] at h
      exact (ih s3 h).trans (addItem_keys s s3 hd.1 (-hd.2) ha)

theorem getItem_addAll (s s2 : State) (l : List (Item × Qty))
    (h : addAll s l = some s2) (it : Item) :
    getItem s2 it = (getItem s it).map (· + listDelta l it) := by
  induction l generalizing s with
  | nil =>
    simp only [addAll] at h
    cases h
    cases getItem s2 it <;> simp [listDelta]
  | cons hd tl ih =>
    cases hd with
    | mk k v =>
      simp only [addAll] at h
      cases ha : addItem s k v with
      | none => rw [ha] at h; simp at h
      | some s3 =>
        rw [ha] at h
        have h3 := ih s3 h
        rw [h3, getItem_addItem s s3 k v ha it]
        by_cases hit : it = k
        · subst hit
          cases g : getItem s it with
          | none => simp [g, listDelta]
          | some a => simp [g, listDelta, add_assoc]
        · rw [if_neg hit]
          simp only [listDelta]
          have hne : ¬ (k = it) := fun hh => hit hh.symm
          rw [if_neg hne]
          cases getItem s it <;> simp

theorem getItem_subAll (s s2 : State) (l : List (Item × Qty))
    (h : subAll s l = some s2) (it : Item) :
    getItem s2 it = (getItem s it).map (· - listDelta l it) := by
  induction l generalizing s with
  | nil =>
    simp only [subAll] at h
    cases h
    cases getItem s2 it <;> simp [listDelta]
  | cons hd tl ih =>
    cases hd with
    | mk k v =>
      simp only [subAll] at h
      cases ha : addItem s k (-v) with
      | none => rw [ha] at h; simp at h
      | some s3 =>
        rw [ha] at h
        have h3 := ih s3 h
        rw [h3, getItem_addItem s s3 k (-v) ha it]
        by_cases hit : it = k
        · subst hit
          cases g : getItem s it with
          | none => simp [g, listDelta]
          | some a => simp [g, listDelta, sub_eq_add_neg, neg_add, add_assoc, add_comm]
        · rw [if_neg hit]
          simp only [listDelta]
          have hne : ¬ (k = it) := fun hh => hit hh.symm
          rw [if_neg hne]
          cases getItem s it <;> simp

theorem addAll_isSome (s : State) (l : List (Item × Qty))
    (h : ∀ p ∈ l, (getItem s p.1).isSome) : ∃ s2, addAll s l = some s2 := by
  induction l generalizing s with
  | nil => exact ⟨s, rfl⟩
  | cons hd tl ih =>
    have h1 : (getItem s hd.1).isSome := h hd (List.mem_cons_self ..)
    cases ha : addItem s hd.1 hd.2 with
    | none =>
      rw [addItem_eq_none_iff] at ha
      rw [ha] at h1
      simp at h1
    | some s3 =>
      have hkeys : ∀ p ∈ tl, (getItem s3 p.1).isSome := by
        intro p hp
        rw [getItem_addItem s s3 hd.1 hd.2 ha p.1]
        by_cases hp1 : p.1 = hd.1
        · rw [if_pos hp1, hp1]
          cases g : getItem s hd.1 <;> simp_all
        · rw [if_neg hp1]
          exact h p (List.mem_cons_of_mem _ hp)
      obtain ⟨s2, hs2⟩ := ih s3 hkeys
      exact ⟨s2, by simp only [addAll, ha]; exact hs2⟩

theorem subAll_isSome (s : State) (l : List (Item × Qty))
    (h : ∀ p ∈ l, (getItem s p.1).isSome) : ∃ s2, subAll s l = some s2 := by
  induction l generalizing s with
  | nil => exact ⟨s, rfl⟩
  | cons hd tl ih =>
    have h1 : (getItem s hd.1).isSome := h hd (List.mem_cons_self ..)
    cases ha : addItem s hd.1 (-hd.2) with
    | none =>
      rw [addItem_eq_none_iff] at ha
      rw [ha] at h1
      simp at h1
    | some s3 =>
      have hkeys : ∀ p ∈ tl, (getItem s3 p.1).isSome := by
        intro p hp
        rw [getItem_addItem s s3 hd.1 (-hd.2) ha p.1]
        by_cases hp1 : p.1 = hd.1
        · rw [if_pos hp1, hp1]
          cases g : getItem s hd.1 <;> simp_all
        · rw [if_neg hp1]
          exact h p (List.mem_cons_of_mem _ hp)
      obtain ⟨s2, hs2⟩ := ih s3 hkeys
      exact ⟨s2, by simp only [subAll, ha]; exact hs2⟩

theorem effect_keys (r : Recipe) (s s2 : State) (h : effect r s = some s2) :
    s2.map Prod.fst = s.map Prod.fst := by
  simp only [effect] at h
  cases ha : addAll s r.produces with
  | none => rw [ha] at h; simp at h
  | some s3 =>
    rw [ha] at h
    cases hc : r.consumes with
    | none =>
      rw [hc] at h
      cases h
      exact addAll_keys s s2 r.produces ha
    | some cs =>
      rw [hc] at h
      exact (subAll_keys s3 s2 cs h).trans (addAll_keys s s3 r.produces ha)

theorem effect_isSome (r : Recipe) (s : State)
    (hp : ∀ p ∈ r.produces, (getItem s p.1).isSome)
    (hcs : ∀ p ∈ r.consumes.getD [], (getItem s p.1).isSome) :
    ∃ s2, effect r s = some s2 := by
  obtain ⟨s3, hs3⟩ := addAll_isSome s r.produces hp
  have hkeys := addAll_keys s s3 r.produces hs3
  cases hc : r.consumes with
  | none => exact ⟨s3, by simp only [effect, hs3, hc]⟩
  | some cs =>
    have hcs3 : ∀ p ∈ cs, (getItem s3 p.1).isSome := by
      intro p hp2
      rw [getItem_isSome_iff, hkeys, ← getItem_isSome_iff]
      have := hcs p
      rw [hc] at this
      exact this hp2
    obtain ⟨s2, hs2⟩ := subAll_isSome s3 cs hcs3
    exact ⟨s2, by simp only [effect, hs3, hc]; exact hs2⟩

theorem getItem_effect (r : Recipe) (s s2 : State) (h : effect r s = some s2)
    (it : Item) :
    getItem s2 it =
      (getItem s it).map
        (fun v => v + listDelta r.produces it - listDelta (r.consumes.getD []) it) := by
  simp only [effect] at h
  cases ha : addAll s r.produces with
  | none => rw [ha] at h; simp at h
  | some s3 =>
    rw [ha] at h
    have h3 := getItem_addAll s s3 r.produces ha it
    cases hc : r.consumes with
    | none =>
      rw [hc] at h
      cases h
      rw [h3]
      cases getItem s it <;> simp [listDelta]
    | some cs =>
      rw [hc] at h
      have h4 := getItem_subAll s3 s2 cs h it
      rw [h4, h3]
      cases getItem s it <;> simp

theorem checkConsumes_true_iff (s : State) (cs : List (Item × Qty)) :
    checkConsumes s cs = some true ↔
      ∀ p ∈ cs, ∃ v, getItem s p.1 = some v ∧ p.2 ≤ v := by
  induction cs with
  | nil => simp [checkConsumes]
  | cons hd tl ih =>
    cases hd with
    | mk it amt =>
      simp only [checkConsumes]
      cases g : getItem s it with
      | none =>
        simp only [List.mem_cons]
        constructor
        · intro h; simp at h
        · intro h
          obtain ⟨v, hv, _⟩ := h (it, amt) (Or.inl rfl)
          rw [g] at hv
          simp at hv
      | some q =>
        dsimp only
        by_cases hq : q < amt
        · rw [if_pos hq]
          constructor
          · intro h; simp at h
          · intro h
            obtain ⟨v, hv, hle⟩ := h (it, amt) (List.mem_cons_self ..)
            rw [g] at hv
            cases hv
            have hle2 : amt ≤ q := hle
            exact absurd hle2 (not_le.mpr hq)
        · rw [if_neg hq]
          rw [ih]
          constructor
          · intro h p hp
            rcases List.mem_cons.mp hp with hp1 | hp2
            · cases hp1
              exact ⟨q, g, show amt ≤ q from not_lt.mp hq⟩
            · exact h p hp2
          · intro h p hp
            exact h p (List.mem_cons_of_mem _ hp)

theorem checkRequires_true_iff (s : State) (rq : List Item) :
    checkRequires s rq = some true ↔
      ∀ it ∈ rq, ∃ v, getItem s it = some v ∧ 1 ≤ v := by
  induction rq with
  | nil => simp [checkRequires]
  | cons hd tl ih =>
    simp only [checkRequires]
    cases g : getItem s hd with
    | none =>
      simp only [List.mem_cons]
      constructor
      · intro h; simp at h
      · intro h
        obtain ⟨v, hv, _⟩ := h hd (Or.inl rfl)
        rw [g] at hv
        simp at hv
    | some q =>
      dsimp only
      by_cases hq : q < 1
      · rw [if_pos hq]
        constructor
        · intro h; simp at h
        · intro h
          obtain ⟨v, hv, hle⟩ := h hd (List.mem_cons_self ..)
          rw [g] at hv
          cases hv
          have hle2 : (1 : Qty) ≤ q := hle
          exact absurd hle2 (not_le.mpr hq)
      · rw [if_neg hq]
        rw [ih]
        constructor
        · intro h it hp
          rcases List.mem_cons.mp hp with hp1 | hp2
          · cases hp1
            exact ⟨q, g, not_lt.mp hq⟩
          · exact h it hp2
        · intro h it hp
          exact h it (List.mem_cons_of_mem _ hp)

theorem check_true_iff (r : Recipe) (s : State) :
    check r s = some true ↔
      ((∀ p ∈ r.consumes.getD [], ∃ v, getItem s p.1 = some v ∧ p.2 ≤ v) ∧
        (∀ it ∈ r.requires.getD [], ∃ v, getItem s it = some v ∧ 1 ≤ v)) := by
  cases hc : r.consumes with
  | none =>
    cases hr : r.requires with
    | none => simp [check, hc, hr, checkRequires]
    | some rq => simp [check, hc, hr, checkRequires_true_iff]
  | some cs =>
    cases hr : r.requires with
    | none =>
      simp only [check, hc, hr, Option.getD_some, Option.getD_none]
      rw [← checkConsumes_true_iff s cs]
      generalize checkConsumes s cs = cck
      cases cck with
      | none => simp [checkRequires]
      | some b => cases b <;> simp [checkRequires]
    | some rq =>
      simp only [check, hc, hr, Option.getD_some]
      rw [← checkConsumes_true_iff s cs, ← checkRequires_true_iff s rq]
      generalize checkConsumes s cs = cck
      cases cck with
      | none => simp
      | some b => cases b <;> simp

theorem is_goal_true_iff (goal : List (Item × Qty)) (s : State) :
    is_goal goal s = some true ↔
      ∀ p ∈ goal, ∃ v, getItem s p.1 = some v ∧ p.2 ≤ v := by
  induction goal with
  | nil => simp [is_goal]
  | cons hd tl ih =>
    cases hd with
    | mk it req =>
      simp only [is_goal]
      cases g : getItem s it with
      | none =>
        simp only [List.mem_cons]
        constructor
        · intro h; simp at h
        · intro h
          obtain ⟨v, hv, _⟩ := h (it, req) (Or.inl rfl)
          rw [g] at hv
          simp at hv
      | some q =>
        dsimp only
        by_cases hq : q < req
        · rw [if_pos hq]
          constructor
          · intro h; simp at h
          · intro h
            obtain ⟨v, hv, hle⟩ := h (it, req) (List.mem_cons_self ..)
            rw [g] at hv
            cases hv
            have hle2 : req ≤ q := hle
            exact absurd hle2 (not_le.mpr hq)
        · rw [if_neg hq]
          rw [ih]
          constructor
          · intro h p hp
            rcases List.mem_cons.mp hp with hp1 | hp2
            · cases hp1
              exact ⟨q, g, show req ≤ q from not_lt.mp hq⟩
            · exact h p hp2
          · intro h p hp
            exact h p (List.mem_cons_of_mem _ hp)

theorem is_goal_absent_none (goal : List (Item × Qty)) (s : State) :
    ∀ g1 p g2, goal = g1 ++ p :: g2 → getItem s p.1 = none →
      (∀ q ∈ g1, ∃ v, getItem s q.1 = some v ∧ q.2 ≤ v) →
      is_goal goal s = none := by
  intro g1
  induction g1 generalizing goal with
  | nil =>
    intro p g2 hsplit habs _
    subst hsplit
    cases p with
    | mk it req => simp [is_goal, habs]
  | cons hd tl ih =>
    intro p g2 hsplit habs hok
    subst hsplit
    cases hd with
    | mk it req =>
      obtain ⟨v, hv, hle⟩ := hok (it, req) (List.mem_cons_self ..)
      have hle2 : req ≤ v := hle
      simp only [List.cons_append, is_goal, hv]
      rw [if_neg (not_lt.mpr hle2)]
      exact ih (tl ++ p :: g2) p g2 rfl habs
        (fun q hq => hok q (List.mem_cons_of_mem _ hq))

theorem listDelta_nonneg (l : List (Item × Qty)) (it : Item)
    (h : ∀ q ∈ l, 0 ≤ q.2) : 0 ≤ listDelta l it := by
  induction l with
  | nil => simp [listDelta]
  | cons hd tl ih =>
    simp only [listDelta]
    have h1 : 0 ≤ hd.2 := h hd (List.mem_cons_self ..)
    have h2 : 0 ≤ listDelta tl it := ih (fun q hq => h q (List.mem_cons_of_mem _ hq))
    cases hd with
    | mk k v =>
      by_cases hk : k = it
      · rw [if_pos hk]; exact add_nonneg h1 h2
      · rw [if_neg hk]; simpa using h2

theorem listDelta_eq_zero (l : List (Item × Qty)) (it : Item)
    (h : it ∉ l.map Prod.fst) : listDelta l it = 0 := by
  induction l with
  | nil => simp [listDelta]
  | cons hd tl ih =>
    simp only [List.map_cons, List.mem_cons] at h
    push_neg at h
    simp only [listDelta]
    rw [if_neg (fun hk => h.1 hk.symm), ih h.2]
    simp

theorem listDelta_of_nodup (l : List (Item × Qty)) (p : Item × Qty)
    (hnodup : (l.map Prod.fst).Nodup) (hp : p ∈ l) : listDelta l p.1 = p.2 := by
  induction l with
  | nil => simp at hp
  | cons hd tl ih =>
    simp only [List.map_cons, List.nodup_cons] at hnodup
    rcases List.mem_cons.mp hp with hp1 | hp2
    · subst hp1
      simp only [listDelta, if_pos rfl]
      rw [listDelta_eq_zero tl p.1 hnodup.1]
      simp
    · have hk : hd.1 ≠ p.1 := by
        intro hk
        exact hnodup.1 (hk ▸ List.mem_map_of_mem Prod.fst hp2)
      simp only [listDelta]
      rw [if_neg hk, ih hnodup.2 hp2]
      simp

/-- Claim C4 (counterexample): the compiled goal predicate does not return
`False` when a required item's key is absent from the state; the subscript
`state[item]` raises `KeyError` first (modelled by `none`).  Here the goal
requires one `"wood"` but the state has no `"wood"` key at all. -/
theorem C4_counterexample_absent_key_raises :
    is_goal [("wood", 1)] [("stone", 3)] = none ∧
      is_goal [("wood", 1)] [("stone", 3)] ≠ some false := by
  constructor
  · rfl
  · intro h
    simp [is_goal, getItem] at h

/-- Claim C4 (amended): the compiled goal predicate returns `True` iff every
required item is present with quantity at least the required minimum.  When a
required item's key is absent the predicate never returns `True`: it raises
`KeyError` (`none`) unless an earlier-checked requirement already returned
`False`; in particular, when all requirements listed before the absent item
are satisfied, the call raises `KeyError` instead of returning `False`. -/
theorem C4_goal_predicate (goal : List (Item × Qty)) (s : State) :
    (is_goal goal s = some true ↔
      ∀ p ∈ goal, ∃ v, getItem s p.1 = some v ∧ p.2 ≤ v)
    ∧ ((∃ p ∈ goal, getItem s p.1 = none) → is_goal goal s ≠ some true)
    ∧ (∀ g1 p g2, goal = g1 ++ p :: g2 → getItem s p.1 = none →
        (∀ q ∈ g1, ∃ v, getItem s q.1 = some v ∧ q.2 ≤ v) →
        is_goal goal s = none) := by
  refine ⟨is_goal_true_iff goal s, ?_, is_goal_absent_none goal s⟩
  intro ⟨p, hp, habs⟩ htrue
  obtain ⟨v, hv, _⟩ := (is_goal_true_iff goal s).mp htrue p hp
  rw [habs] at hv
  simp at hv

/-- Claim C4 witness: the amended theorem applied to a concrete goal and
state, discharging its hypotheses. -/
theorem C4_goal_predicate_witness :
    is_goal [("plank", 2), ("wood", 1)] [("plank", 3)] = none := by
  refine (C4_goal_predicate [("plank", 2), ("wood", 1)] [("plank", 3)]).2.2
    [("plank", 2)] ("wood", 1) [] rfl rfl ?_
  intro q hq
  rcases List.mem_cons.mp hq with h1 | h2
  · cases h1
    exact ⟨3, rfl, by norm_num⟩
  · simp at h2

/-- Claim C5: for every rule and every state containing the items the rule
mentions, the compiled feasibility predicate returns `True` iff the state
holds at least every `Consumes` amount and at least one of every `Requires`
item; a rule with neither clause is feasible in every state. -/
theorem C5_feasibility (r : Recipe) (s : State)
    (_hc : ∀ p ∈ r.consumes.getD [], (getItem s p.1).isSome)
    (_hr : ∀ it ∈ r.requires.getD [], (getItem s it).isSome) :
    (check r s = some true ↔
      ((∀ p ∈ r.consumes.getD [], ∃ v, getItem s p.1 = some v ∧ p.2 ≤ v) ∧
        (∀ it ∈ r.requires.getD [], ∃ v, getItem s it = some v ∧ 1 ≤ v)))
    ∧ (r.consumes = none → r.requires = none → check r s = some true) := by
  refine ⟨check_true_iff r s, ?_⟩
  intro h1 h2
  simp [check, h1, h2]

/-- One concrete compiled rule used by witnesses: craft four planks from one
piece of wood at a bench. -/
def recipePlank : Recipe :=
  { name := "craft plank"
    produces := [("plank", 4)]
    consumes := some [("wood", 1)]
    requires := some ["bench"]
    time := 1 }

/-- One concrete state used by witnesses. -/
def stateW : State := [("wood", 2), ("plank", 0), ("bench", 1)]

/-- Claim C5 witness: the theorem applied to the concrete rule and state,
with its hypotheses discharged there. -/
theorem C5_feasibility_witness :
    (∀ p ∈ recipePlank.consumes.getD [], (getItem stateW p.1).isSome) ∧
      (check recipePlank stateW = some true ↔
        ((∀ p ∈ recipePlank.consumes.getD [],
            ∃ v, getItem stateW p.1 = some v ∧ p.2 ≤ v) ∧
          (∀ it ∈ recipePlank.requires.getD [],
            ∃ v, getItem stateW it = some v ∧ 1 ≤ v))) :=
  ⟨by decide, (C5_feasibility recipePlank stateW (by decide) (by decide)).1⟩

/-- Claim C6: for every rule and every state containing the items the rule
mentions, the effect function succeeds and returns a new state equal to the
input with every `Produces` amount added and then every `Consumes` amount
subtracted, over the same key set.  Non-mutation of the input is inherent to
the embedding: `effect` builds its result from a copy
(`next_state = state.copy()`), and the produce-then-consume order is the
code's (the net per-key delta shown here is exactly that order's result). -/
theorem C6_effect_adds_then_subtracts (r : Recipe) (s : State)
    (hp : ∀ p ∈ r.produces, (getItem s p.1).isSome)
    (hcs : ∀ p ∈ r.consumes.getD [], (getItem s p.1).isSome) :
    ∃ s2, effect r s = some s2 ∧
      s2.map Prod.fst = s.map Prod.fst ∧
      ∀ it v, getItem s it = some v →
        getItem s2 it =
          some (v + listDelta r.produces it - listDelta (r.consumes.getD []) it) := by
  obtain ⟨s2, hs2⟩ := effect_isSome r s hp hcs
  refine ⟨s2, hs2, effect_keys r s s2 hs2, ?_⟩
  intro it v hv
  rw [getItem_effect r s s2 hs2 it, hv]
  rfl

/-- Claim C6 witness: the theorem applied to the concrete rule and state,
with its hypotheses discharged there. -/
theorem C6_effect_witness :
    (∀ p ∈ recipePlank.produces, (getItem stateW p.1).isSome) ∧
      ∃ s2, effect recipePlank stateW = some s2 ∧
        s2.map Prod.fst = stateW.map Prod.fst ∧
        ∀ it v, getItem stateW it = some v →
          getItem s2 it =
            some (v + listDelta recipePlank.produces it -
              listDelta (recipePlank.consumes.getD []) it) :=
  ⟨by decide, C6_effect_adds_then_subtracts recipePlank stateW (by decide) (by decide)⟩

/-- Claim C7: applying a compiled rule with non-negative `Produces` amounts
to a non-negative state that satisfies the rule's feasibility predicate
leaves every item of the `Consumes` clause non-negative.  The key-list
`Nodup` hypothesis records that a Python dict holds each key once. -/
theorem C7_consumed_stay_nonneg (r : Recipe) (s s2 : State)
    (hnodup : ((r.consumes.getD []).map Prod.fst).Nodup)
    (hprod : ∀ p ∈ r.produces, 0 ≤ p.2)
    (_hstate : ∀ p ∈ s, 0 ≤ p.2)
    (hchk : check r s = some true)
    (heff : effect r s = some s2) :
    ∀ p ∈ r.consumes.getD [], ∃ v, getItem s2 p.1 = some v ∧ 0 ≤ v := by
  intro p hp
  obtain ⟨v, hv, hle⟩ := ((check_true_iff r s).mp hchk).1 p hp
  have hkey := getItem_effect r s s2 heff p.1
  rw [hv] at hkey
  refine ⟨v + listDelta r.produces p.1 - listDelta (r.consumes.getD []) p.1,
    by rw [hkey]; rfl, ?_⟩
  rw [listDelta_of_nodup (r.consumes.getD []) p hnodup hp]
  have h1 : 0 ≤ listDelta r.produces p.1 := listDelta_nonneg r.produces p.1 hprod
  have h2 : p.2 ≤ v := hle
  linarith

/-- Claim C7 witness: the theorem applied to the concrete rule and state,
with its hypotheses discharged there. -/
theorem C7_consumed_stay_nonneg_witness :
    check recipePlank stateW = some true ∧
      ∀ p ∈ recipePlank.consumes.getD [],
        ∃ v, getItem [("wood", 1), ("plank", 4), ("bench", 1)] p.1 = some v ∧ 0 ≤ v :=
  ⟨by decide,
    C7_consumed_stay_nonneg recipePlank stateW [("wood", 1), ("plank", 4), ("bench", 1)]
      (by decide) (by decide) (by decide) (by decide) (by decide)⟩

/-- Priorities: numbers plus the float `inf` a heuristic may return. -/
abbrev Prio := WithTop ℤ

/-- Python comparison of two `(name, quantity)` pairs: the name first, then
the quantity. -/
def pairLtB (a b : Item × Qty) : Bool :=
  decide (a.1 < b.1) || (decide (a.1 = b.1) && decide (a.2 < b.2))

/-- Python `State.__lt__`: lexicographic comparison of `tuple(self.items())`
(elementwise, a strict prefix being smaller). -/
def stateLtB : State → State → Bool
  | [], [] => false
  | [], _ :: _ => true
  | _ :: _, [] => false
  | a :: as2, b :: bs => pairLtB a b || (decide (a = b) && stateLtB as2 bs)

/-- Python comparison of two heap entries `(priority, state)`: the tuple
order `heapq` maintains. -/
def entryLtB (e f : Prio × State) : Bool :=
  decide (e.1 < f.1) || (decide (e.1 = f.1) && stateLtB e.2 f.2)

/-- The least entry of a frontier under the `heapq` tuple order (`heappop`
returns the root, the minimum of that order). -/
def minEntry : List (Prio × State) → Option (Prio × State)
  | [] => none
  | e :: rest =>
    match minEntry rest with
    | none => some e
    | some m => some (if entryLtB m e then m else e)

/-- Remove the first occurrence of an entry. -/
def eraseFirst : List (Prio × State) → (Prio × State) → List (Prio × State)
  | [], _ => []
  | x :: xs, e => if x = e then xs else x :: eraseFirst xs e

/-- Model of `heappop`: return the minimum entry and the remaining multiset.
Distinct entries are totally ordered by the tuple order, so the minimum value
is the one `heapq` yields; which duplicate of an equal pair is removed does
not matter to the remaining multiset. -/
def popMin (q : List (Prio × State)) : Option ((Prio × State) × List (Prio × State)) :=
  (minEntry q).map (fun m => (m, eraseFirst q m))

/-- One transition yielded by `graph`: `(action name, next state, cost)`. -/
abbrev Edge := String × State × ℤ

/-- The transition generator `graph(state)`: for each recipe in order, yield
`(r.name, r.effect(state), r.cost)` when `r.check(state)` holds.  A
`KeyError` raised by any check, or by the effect of a passing rule, aborts
the enumeration (`none`). -/
def graphGen : List Recipe → State → Option (List Edge)
  | [], _ => some []
  | r :: rest, s =>
    match check r s with
    | none => none
    | some false => graphGen rest s
    | some true =>
      match effect r s with
      | none => none
      | some s2 => (graphGen rest s).map (fun es => (r.name, s2, r.time) :: es)

/-- Association-list lookup, first match (dict lookup). -/
def lookupA {α : Type} : List (State × α) → State → Option α
  | [], _ => none
  | (k, v) :: rest, s => if k = s then some v else lookupA rest s

/-- Association-list store: replace the first binding or append a new one
(dict assignment). -/
def insertA {α : Type} : List (State × α) → State → α → List (State × α)
  | [], s, a => [(s, a)]
  | (k, v) :: rest, s, a =>
    if k = s then (k, a) :: rest else (k, v) :: insertA rest s a

/-- The mutable working set of `search`: the frontier `queue`, the maps
`dist`, `prev` and `actions`, and the `explored_states` counter.  `expLog`
is ghost instrumentation only — the list of entries popped and expanded so
far, never read by the algorithm. -/
structure Cfg where
  queue : List (Prio × State)
  dist : List (State × Prio)
  prev : List (State × Option State)
  acts : List (State × Option String)
  explored : ℕ
  expLog : List (Prio × State)
deriving DecidableEq

/-- One pass of the relaxation loop body for one yielded edge: compute
`new_cost = priority + cost` and, when the target is undiscovered or
improved, store cost/predecessor/action and push
`(new_cost + heuristic(next_state), next_state)`. -/
def relaxOne (h : State → Prio) (p0 : Prio) (s0 : State) (c : Cfg) (e : Edge) : Cfg :=
  let nc : Prio := p0 + ((e.2.2 : ℤ) : Prio)
  let better : Bool :=
    match lookupA c.dist e.2.1 with
    | none => true
    | some d => decide (nc < d)
  if better then
    { c with
      dist := insertA c.dist e.2.1 nc
      prev := insertA c.prev e.2.1 (some s0)
      acts := insertA c.acts e.2.1 (some e.1)
      queue := c.queue ++ [(nc + h e.2.1, e.2.1)]
      explored := c.explored + 1 }
  else { c with explored := c.explored + 1 }

/-- The full problem a `search` call receives: the compiled rule set behind
the `graph` argument, the goal behind `is_goal`, the initial state, the time
limit, the clock readings `tf k` observed at the top of iteration `k`
(`time() - start_time`), and the heuristic. -/
structure System where
  recipes : List Recipe
  goal : List (Item × Qty)
  init : State
  limit : ℤ
  tf : ℕ → ℤ
  h : State → Prio

/-- Python truthiness of `current_state` in the reconstruction loop:
`None` and an empty dictionary are falsy. -/
def truthy : Option State → Bool
  | none => false
  | some s => !s.isEmpty

/-- The path-reconstruction loop: while `current_state` is truthy, append
`(current_state, actions[current_state])` and move to
`prev[current_state]`; the Python list plus final `reverse()` is modelled by
prepending.  `none` models a `KeyError` or a walk that exceeds its fuel (a
cycle would make the Python loop spin forever). -/
def reconWalk (prev : List (State × Option State))
    (acts : List (State × Option String)) :
    ℕ → Option State → List (State × Option String) →
      Option (List (State × Option String))
  | 0, cur, acc => if truthy cur then none else some acc
  | fuel + 1, cur, acc =>
    match cur with
    | none => some acc
    | some s =>
      if s.isEmpty then some acc
      else
        match lookupA acts s, lookupA prev s with
        | some a, some pr => reconWalk prev acts fuel pr ((s, a) :: acc)
        | _, _ => none

/-- Result of one loop iteration. -/
inductive StepOut where
  | found : List (State × Option String) → StepOut
  | crash : StepOut
  | cont : Cfg → StepOut

/-- One iteration of the search loop: pop the minimum entry, return the
reconstructed path when it satisfies the goal, otherwise expand it through
the transition generator, relaxing each yielded edge in order.  `crash`
models an uncaught `KeyError` (the Python process dies; any relaxations of
the crashing iteration are unobservable). -/
def stepOnce (sys : System) (c : Cfg) : StepOut :=
  match popMin c.queue with
  | none => .crash
  | some ((p0, s0), rest) =>
    match is_goal sys.goal s0 with
    | none => .crash
    | some true =>
      match reconWalk c.prev c.acts (c.prev.length + 1) (some s0) [] with
      | none => .crash
      | some path => .found path
    | some false =>
      match graphGen sys.recipes s0 with
      | none => .crash
      | some edges =>
        .cont (List.foldl (relaxOne sys.h p0 s0)
          { c with queue := rest, expLog := (p0, s0) :: c.expLog } edges)

/-- Outcome of a whole `search` call.  `failure` is the `None` return (the
frontier emptied or the clock reached the limit); `crash` is an uncaught
exception; `fuelOut` only reports that the given iteration budget of the
model ran out. -/
inductive SearchResult where
  | found : List (State × Option String) → SearchResult
  | failure : SearchResult
  | crash : SearchResult
  | fuelOut : SearchResult
deriving DecidableEq

/-- The search loop `while queue and (time() - start_time < limit): ...`,
returning `None` (`failure`) when the frontier empties or the clock reading
at the top of an iteration reaches the limit. -/
def runSearch (sys : System) : ℕ → ℕ → Cfg → SearchResult
  | 0, _, _ => .fuelOut
  | fuel + 1, k, c =>
    if c.queue = [] then .failure
    else if sys.tf k < sys.limit then
      match stepOnce sys c with
      | .found p => .found p
      | .crash => .crash
      | .cont c2 => runSearch sys fuel (k + 1) c2
    else .failure

/-- The initial working set built at the top of `search`: the frontier holds
`(0, state)`, and the three maps bind the initial state to cost `0`, no
predecessor and no action. -/
def cfg0 (sys : System) : Cfg :=
  { queue := [(0, sys.init)]
    dist := [(sys.init, 0)]
    prev := [(sys.init, none)]
    acts := [(sys.init, none)]
    explored := 0
    expLog := [] }

/-- A whole `search(graph, state, is_goal, limit, heuristic)` call, given an
iteration budget for the model. -/
def search (sys : System) (fuel : ℕ) : SearchResult :=
  runSearch sys fuel 0 (cfg0 sys)

/-- Iterate the loop body alone (no clock, no emptiness test): the
configuration after `n` expanding iterations, when the first `n` iterations
all expand. -/
def stepIter (sys : System) : ℕ → Cfg → Option Cfg
  | 0, c => some c
  | n + 1, c =>
    match stepOnce sys c with
    | .cont c2 => stepIter sys n c2
    | _ => none

/-- Claim C8: with a zero or negative time budget the loop condition
`time() - start_time < limit` is already false at the first iteration (a
monotonic clock reads a non-negative elapsed time), so `search` returns the
failure sentinel at once — for every rule set, goal, heuristic and working
set, hence before any goal check or expansion, even when the initial state
satisfies the goal. -/
theorem C8_nonpositive_budget_fails_immediately (sys : System) (fuel k : ℕ)
    (c : Cfg) (hlim : sys.limit ≤ 0) (htf : 0 ≤ sys.tf k) :
    runSearch sys (fuel + 1) k c = .failure := by
  simp only [runSearch]
  by_cases hq : c.queue = []
  · rw [if_pos hq]
  · rw [if_neg hq, if_neg (not_lt.mpr (hlim.trans htf))]

/-- A system whose initial state already satisfies the goal but whose time
budget is zero. -/
def sysBudget : System :=
  { recipes := []
    goal := [("gold", 1)]
    init := [("gold", 1)]
    limit := 0
    tf := fun _ => 0
    h := fun _ => 0 }

/-- Claim C8 witness: the theorem applied at a concrete system whose initial
state satisfies the goal, hypotheses discharged there. -/
theorem C8_nonpositive_budget_witness :
    is_goal sysBudget.goal sysBudget.init = some true ∧
      search sysBudget 5 = .failure :=
  ⟨by decide,
    C8_nonpositive_budget_fails_immediately sysBudget 4 0 (cfg0 sysBudget)
      (le_refl 0) (le_refl 0)⟩

/-- States of the claim C2 exhibit. -/
def stInit2 : State := [("s", 1), ("a", 0), ("b", 0)]

/-- State after producing one `a` from `stInit2`. -/
def stA2 : State := [("s", 1), ("a", 1), ("b", 0)]

/-- State after producing one `b` from `stInit2`. -/
def stB2 : State := [("s", 1), ("a", 0), ("b", 1)]

/-- State after producing two `a` from `stInit2`. -/
def stAA2 : State := [("s", 1), ("a", 2), ("b", 0)]

/-- Always-feasible recipe producing one `a`. -/
def recMkA : Recipe :=
  { name := "mkA", produces := [("a", 1)], consumes := none
    requires := none, time := 1 }

/-- Always-feasible recipe producing one `b`. -/
def recMkB : Recipe :=
  { name := "mkB", produces := [("b", 1)], consumes := none
    requires := none, time := 1 }

/-- A system with a nonzero heuristic on which the relaxation's
`new_cost = priority + cost` deviates from `dist[current] + cost`. -/
def sysC2 : System :=
  { recipes := [recMkA, recMkB]
    goal := [("b", 9)]
    init := stInit2
    limit := 100
    tf := fun _ => 0
    h := fun s => if s = stA2 then 5 else if s = stB2 then 50 else 0 }

/-- Recorded best cost of a state after `n` expanding iterations of the
claim C2 exhibit. -/
def distC2After (n : ℕ) (s : State) : Option Prio :=
  (stepIter sysC2 n (cfg0 sysC2)).bind (fun c => lookupA c.dist s)

/-- Claim C2 exhibit: after popping `stA2` (pushed with priority
`dist + heuristic = 1 + 5`), the relaxation of its successor `stAA2` stores
`priority + cost = 6 + 1 = 7`, although the popped state's recorded best
cost plus the edge cost is `1 + 1 = 2`: the candidate cost includes the
popped entry's heuristic component, contradicting the claim. -/
theorem C2_candidate_uses_priority_not_dist :
    distC2After 2 stAA2 = some 7 ∧
      distC2After 2 stA2 = some 1 ∧
      recMkA.time = 1 ∧
      ((7 : Prio) ≠ 1 + 1) := by
  refine ⟨by decide, by decide, rfl, by decide⟩

/-- Initial state of the claim C3 exhibit: two tokens `t`. -/
def stInit3 : State := [("t", 2), ("m", 0), ("a", 0), ("g", 0)]

/-- Intermediate state of the cheap route: one `t` traded for one `m`. -/
def stM3 : State := [("t", 1), ("m", 1), ("a", 0), ("g", 0)]

/-- The state both routes reach: all tokens spent, one `a`. -/
def stA3 : State := [("t", 0), ("m", 0), ("a", 1), ("g", 0)]

/-- The goal state of the claim C3 exhibit. -/
def stG3 : State := [("t", 0), ("m", 0), ("a", 0), ("g", 1)]

/-- Expensive direct route to `stA3`: two `t` for one `a`, cost 10. -/
def recSlowA : Recipe :=
  { name := "slowA", produces := [("a", 1)], consumes := some [("t", 2)]
    requires := none, time := 10 }

/-- First leg of the cheap route: one `t` for one `m`, cost 1. -/
def recToM : Recipe :=
  { name := "toM", produces := [("m", 1)], consumes := some [("t", 1)]
    requires := none, time := 1 }

/-- Second leg of the cheap route: one `t` and one `m` for one `a`, cost 2. -/
def recFastA : Recipe :=
  { name := "fastA", produces := [("a", 1)], consumes := some [("t", 1), ("m", 1)]
    requires := none, time := 2 }

/-- Final step: one `a` for the goal item `g`, cost 20. -/
def recToG : Recipe :=
  { name := "toG", produces := [("g", 1)], consumes := some [("a", 1)]
    requires := none, time := 20 }

/-- A zero-heuristic system in which `stA3` is discovered at cost 10, then
improved to cost 3, so the frontier keeps a stale entry `(10, stA3)` that is
popped while `dist[stA3] = 3`. -/
def sysC3 : System :=
  { recipes := [recSlowA, recToM, recFastA, recToG]
    goal := [("g", 1)]
    init := stInit3
    limit := 1000
    tf := fun _ => 0
    h := fun _ => 0 }

/-- Claim C3 (counterexample): at the fifth iteration of the exhibit the
popped entry `(10, stA3)` is stale — the recorded best cost of `stA3` is
already `3` — yet the engine does not skip it: it re-expands the state, the
`explored_states` counter rising as the generator is consumed again
(`5` to `6`).  This refutes ``the engine never re-expands a state whose best
cost is already finalized''. -/
theorem C3_counterexample_stale_pop_reexpanded :
    ((stepIter sysC3 4 (cfg0 sysC3)).bind
        (fun c => (popMin c.queue).map (fun x => x.1))) = some (10, stA3) ∧
      ((stepIter sysC3 4 (cfg0 sysC3)).bind
        (fun c => lookupA c.dist stA3)) = some 3 ∧
      ((3 : Prio) < 10) ∧
      ((stepIter sysC3 4 (cfg0 sysC3)).map (fun c => c.explored)) = some 5 ∧
      ((stepIter sysC3 5 (cfg0 sysC3)).map (fun c => c.explored)) = some 6 := by
  refine ⟨by decide, by decide, by decide, by decide, by decide⟩

/-- The degenerate system of the claim C9 counterexample: an empty item
vocabulary, so the initial state is the empty mapping, which satisfies the
empty goal. -/
def sysEmpty : System :=
  { recipes := []
    goal := []
    init := []
    limit := 1
    tf := fun _ => 0
    h := fun _ => 0 }

/-- Claim C9 (counterexample): from the empty initial state the search
succeeds at once, but the reconstruction loop `while current_state:` stops
immediately on the falsy empty dictionary, so the returned path is `[]` and
has no first element at all — it does not begin with the initial state. -/
theorem C9_counterexample_empty_init_path :
    search sysEmpty 2 = .found [] ∧
      (([] : List (State × Option String)).head? ≠ some (sysEmpty.init, none)) := by
  refine ⟨by decide, by simp⟩

theorem lookupA_insertA {α : Type} (m : List (State × α)) (s : State) (a : α)
    (s2 : State) :
    lookupA (insertA m s a) s2 = if s = s2 then some a else lookupA m s2 := by
  induction m with
  | nil => simp [insertA, lookupA]
  | cons hd tl ih =>
    cases hd with
    | mk k v =>
      by_cases hk : k = s
      · subst hk
        simp only [insertA, if_pos rfl, lookupA]
        by_cases h2 : k = s2 <;> simp [h2]
      · simp only [insertA, if_neg hk, lookupA]
        by_cases h2 : k = s2
        · subst h2
          rw [if_pos rfl, if_neg (fun hh => hk hh.symm), if_pos rfl]
        · rw [if_neg h2, if_neg h2, ih]

theorem minEntry_mem (q : List (Prio × State)) (m : Prio × State)
    (h : minEntry q = some m) : m ∈ q := by
  induction q generalizing m with
  | nil => simp [minEntry] at h
  | cons e rest ih =>
    simp only [minEntry] at h
    cases hm : minEntry rest with
    | none =>
      rw [hm] at h
      dsimp only at h
      cases h
      exact List.mem_cons_self ..
    | some m2 =>
      rw [hm] at h
      dsimp only at h
      by_cases hlt : entryLtB m2 e
      · rw [if_pos hlt] at h
        cases h
        exact List.mem_cons_of_mem _ (ih _ hm)
      · rw [if_neg hlt] at h
        cases h
        exact List.mem_cons_self ..

theorem entryLtB_false_le (e f : Prio × State) (h : entryLtB f e = false) :
    e.1 ≤ f.1 := by
  simp only [entryLtB, Bool.or_eq_false_iff, decide_eq_false_iff_not] at h
  exact le_of_not_lt h.1

theorem entryLtB_true_le (e f : Prio × State) (h : entryLtB e f = true) :
    e.1 ≤ f.1 := by
  simp only [entryLtB, Bool.or_eq_true, decide_eq_true_eq,
    Bool.and_eq_true] at h
  rcases h with h1 | ⟨h2, _⟩
  · exact le_of_lt h1
  · exact le_of_eq h2

theorem minEntry_min (q : List (Prio × State)) (m : Prio × State)
    (h : minEntry q = some m) : ∀ f ∈ q, m.1 ≤ f.1 := by
  induction q generalizing m with
  | nil => simp [minEntry] at h
  | cons e rest ih =>
    simp only [minEntry] at h
    intro f hf
    cases hm : minEntry rest with
    | none =>
      rw [hm] at h
      dsimp only at h
      cases h
      have hrest : rest = [] := by
        cases rest with
        | nil => rfl
        | cons x xs =>
          exfalso
          simp only [minEntry] at hm
          revert hm
          cases minEntry xs
          · intro hm
            exact Option.noConfusion hm
          · intro hm
            exact Option.noConfusion hm
      subst hrest
      rcases List.mem_cons.mp hf with hfe | hfr
      · rw [hfe]
      · simp at hfr
    | some m2 =>
      rw [hm] at h
      dsimp only at h
      by_cases hlt : entryLtB m2 e
      · rw [if_pos hlt] at h
        cases h
        rcases List.mem_cons.mp hf with hfe | hfr
        · rw [hfe]
          exact entryLtB_true_le _ e hlt
        · exact ih _ hm f hfr
      · rw [if_neg hlt] at h
        cases h
        rcases List.mem_cons.mp hf with hfe | hfr
        · rw [hfe]
        · exact le_trans (entryLtB_false_le e m2 (by simpa using hlt))
            (ih m2 hm f hfr)

theorem eraseFirst_perm (q : List (Prio × State)) (e : Prio × State)
    (h : e ∈ q) : q.Perm (e :: eraseFirst q e) := by
  induction q with
  | nil => simp at h
  | cons x xs ih =>
    by_cases hx : x = e
    · subst hx
      simp [eraseFirst]
    · have hmem : e ∈ xs := by
        rcases List.mem_cons.mp h with h1 | h2
        · exact absurd h1.symm hx
        · exact h2
      simp only [eraseFirst, if_neg hx]
      exact ((ih hmem).cons x).trans (List.Perm.swap e x (eraseFirst xs e))

theorem popMin_inversion (q : List (Prio × State)) (e : Prio × State)
    (rest : List (Prio × State)) (h : popMin q = some (e, rest)) :
    e ∈ q ∧ (∀ f ∈ q, e.1 ≤ f.1) ∧ q.Perm (e :: rest) := by
  simp only [popMin] at h
  cases hm : minEntry q with
  | none => rw [hm] at h; simp at h
  | some m =>
    rw [hm] at h
    simp only [Option.map] at h
    cases h
    exact ⟨minEntry_mem q _ hm, minEntry_min q _ hm,
      eraseFirst_perm q _ (minEntry_mem q _ hm)⟩

theorem popMin_isSome (q : List (Prio × State)) (hq : q ≠ []) :
    ∃ e rest, popMin q = some (e, rest) := by
  cases q with
  | nil => exact absurd rfl hq
  | cons x xs =>
    simp only [popMin, minEntry]
    cases hm : minEntry xs with
    | none => exact ⟨x, _, rfl⟩
    | some m => exact ⟨_, _, rfl⟩

/-- One genuine transition of the compiled rule set: rule `a` with cost `cq`
is feasible at `u` and rewrites it to `v`. -/
def IsEdge (recipes : List Recipe) (u : State) (a : String) (v : State)
    (cq : ℤ) : Prop :=
  ∃ r, r ∈ recipes ∧ r.name = a ∧ r.time = cq ∧
    check r u = some true ∧ effect r u = some v

theorem graphGen_mem (recipes : List Recipe) (s : State) (es : List Edge)
    (h : graphGen recipes s = some es) :
    ∀ e ∈ es, IsEdge recipes s e.1 e.2.1 e.2.2 := by
  induction recipes generalizing es with
  | nil =>
    simp only [graphGen] at h
    cases h
    simp
  | cons r rest ih =>
    simp only [graphGen] at h
    cases hc : check r s with
    | none => rw [hc] at h; simp at h
    | some b =>
      rw [hc] at h
      cases b with
      | false =>
        intro e he
        obtain ⟨r2, hr2, h2⟩ := ih es h e he
        exact ⟨r2, List.mem_cons_of_mem _ hr2, h2⟩
      | true =>
        cases he2 : effect r s with
        | none => rw [he2] at h; simp at h
        | some s2 =>
          rw [he2] at h
          cases hg : graphGen rest s with
          | none => rw [hg] at h; simp at h
          | some es2 =>
            rw [hg] at h
            simp only [Option.map_some] at h
            cases h
            intro e he
            rcases List.mem_cons.mp he with he1 | he3
            · subst he1
              exact ⟨r, List.mem_cons_self .., rfl, rfl, hc, he2⟩
            · obtain ⟨r2, hr2, h2⟩ := ih es2 hg e he3
              exact ⟨r2, List.mem_cons_of_mem _ hr2, h2⟩

theorem graphGen_complete (recipes : List Recipe) (s : State) (es : List Edge)
    (h : graphGen recipes s = some es) :
    ∀ r ∈ recipes, check r s = some true →
      ∃ s2, effect r s = some s2 ∧ (r.name, s2, r.time) ∈ es := by
  induction recipes generalizing es with
  | nil => simp
  | cons r0 rest ih =>
    simp only [graphGen] at h
    cases hc : check r0 s with
    | none => rw [hc] at h; simp at h
    | some b =>
      rw [hc] at h
      cases b with
      | false =>
        intro r hr hrchk
        rcases List.mem_cons.mp hr with hr1 | hr2
        · subst hr1
          rw [hrchk] at hc
          simp at hc
        · exact ih es h r hr2 hrchk
      | true =>
        cases he2 : effect r0 s with
        | none => rw [he2] at h; simp at h
        | some s2 =>
          rw [he2] at h
          cases hg : graphGen rest s with
          | none => rw [hg] at h; simp at h
          | some es2 =>
            rw [hg] at h
            simp only [Option.map_some] at h
            cases h
            intro r hr hrchk
            rcases List.mem_cons.mp hr with hr1 | hr2
            · subst hr1
              exact ⟨s2, he2, List.mem_cons_self ..⟩
            · obtain ⟨s3, hs3, hmem⟩ := ih es2 hg r hr2 hrchk
              exact ⟨s3, hs3, List.mem_cons_of_mem _ hmem⟩

/-- Run an action sequence: apply each rule in turn, requiring its
feasibility predicate to hold at each step. -/
def runSeq : List Recipe → State → Option State
  | [], s => some s
  | r :: rest, s =>
    match check r s with
    | some true =>
      match effect r s with
      | some s2 => runSeq rest s2
      | _ => none
    | _ => none

/-- Total cost of an action sequence: the sum of its `Time` values. -/
def sumTimes (rs : List Recipe) : ℤ := (rs.map Recipe.time).sum

theorem runSeq_append (rs1 rs2 : List Recipe) (s : State) :
    runSeq (rs1 ++ rs2) s =
      match runSeq rs1 s with
      | some s2 => runSeq rs2 s2
      | none => none := by
  induction rs1 generalizing s with
  | nil => simp [runSeq]
  | cons r rest ih =>
    simp only [List.cons_append, runSeq]
    cases check r s with
    | none => rfl
    | some b =>
      cases b with
      | false => rfl
      | true =>
        cases effect r s with
        | none => rfl
        | some s2 => exact ih s2

theorem sumTimes_append (rs1 rs2 : List Recipe) :
    sumTimes (rs1 ++ rs2) = sumTimes rs1 + sumTimes rs2 := by
  simp [sumTimes]

theorem sumTimes_nonneg (rs : List Recipe) (h : ∀ r ∈ rs, 0 ≤ r.time) :
    0 ≤ sumTimes rs := by
  induction rs with
  | nil => simp [sumTimes]
  | cons r rest ih =>
    have h1 : 0 ≤ r.time := h r (List.mem_cons_self ..)
    have h2 : 0 ≤ sumTimes rest := ih (fun r2 hr2 => h r2 (List.mem_cons_of_mem _ hr2))
    simp only [sumTimes, List.map_cons, List.sum_cons]
    exact add_nonneg h1 h2

theorem relaxOne_cases (h : State → Prio) (p0 : Prio) (s0 : State) (x : Cfg)
    (e : Edge) :
    (∃ dOld, lookupA x.dist e.2.1 = some dOld ∧
      ¬ (p0 + (e.2.2 : Prio) < dOld) ∧
      relaxOne h p0 s0 x e = { x with explored := x.explored + 1 }) ∨
    ((lookupA x.dist e.2.1 = none ∨
        ∃ dOld, lookupA x.dist e.2.1 = some dOld ∧ p0 + (e.2.2 : Prio) < dOld) ∧
      relaxOne h p0 s0 x e =
        { x with
          dist := insertA x.dist e.2.1 (p0 + (e.2.2 : Prio))
          prev := insertA x.prev e.2.1 (some s0)
          acts := insertA x.acts e.2.1 (some e.1)
          queue := x.queue ++ [(p0 + (e.2.2 : Prio) + h e.2.1, e.2.1)]
          explored := x.explored + 1 }) := by
  simp only [relaxOne]
  cases hd : lookupA x.dist e.2.1 with
  | none => right; exact ⟨Or.inl rfl, rfl⟩
  | some dOld =>
    by_cases hlt : p0 + (e.2.2 : Prio) < dOld
    · right
      refine ⟨Or.inr ⟨dOld, rfl, hlt⟩, ?_⟩
      simp [hlt]
    · left
      refine ⟨dOld, rfl, hlt, ?_⟩
      simp [hlt]

/-- Everything the relaxation loop of one expansion does to the working
set, relative to its configuration at the top of the loop. -/
structure FoldSpec (h : State → Prio) (p0 : Prio) (s0 : State) (x y : Cfg)
    (es : List Edge) : Prop where
  log_eq : y.expLog = x.expLog
  expl : y.explored = x.explored + es.length
  dist_mono : ∀ s d, lookupA x.dist s = some d →
    ∃ d2, lookupA y.dist s = some d2 ∧ d2 ≤ d
  triple : ∀ s,
    (lookupA y.dist s = lookupA x.dist s ∧
      lookupA y.prev s = lookupA x.prev s ∧
      lookupA y.acts s = lookupA x.acts s) ∨
    (∃ e, e ∈ es ∧ e.2.1 = s ∧
      lookupA y.dist s = some (p0 + (e.2.2 : Prio)) ∧
      lookupA y.prev s = some (some s0) ∧
      lookupA y.acts s = some (some e.1) ∧
      (p0 + (e.2.2 : Prio) + h s, s) ∈ y.queue ∧
      (lookupA x.dist s = none ∨
        ∃ dOld, lookupA x.dist s = some dOld ∧ p0 + (e.2.2 : Prio) < dOld))
  edge_bound : ∀ e ∈ es, ∃ d2, lookupA y.dist e.2.1 = some d2 ∧
    d2 ≤ p0 + (e.2.2 : Prio)
  queue_grow : ∃ pushes, y.queue = x.queue ++ pushes ∧
    ∀ pp t, (pp, t) ∈ pushes → ∃ e, e ∈ es ∧ e.2.1 = t ∧
      pp = p0 + (e.2.2 : Prio) + h t ∧
      ∃ d2, lookupA y.dist t = some d2 ∧ d2 ≤ p0 + (e.2.2 : Prio)

theorem foldRelax_spec (h : State → Prio) (p0 : Prio) (s0 : State) (x : Cfg)
    (es : List Edge) :
    FoldSpec h p0 s0 x (List.foldl (relaxOne h p0 s0) x es) es := by
  induction es generalizing x with
  | nil =>
    refine ⟨rfl, rfl, ?_, ?_, ?_, ?_⟩
    · exact fun s d hd => ⟨d, hd, le_refl d⟩
    · exact fun s => Or.inl ⟨rfl, rfl, rfl⟩
    · simp
    · exact ⟨[], by simp, by simp⟩
  | cons e rest ih =>
    have hstep := relaxOne_cases h p0 s0 x e
    simp only [List.foldl_cons]
    obtain ⟨ihl, ihe, ihm, iht, ihb, ihq⟩ := ih (relaxOne h p0 s0 x e)
    rcases hstep with ⟨dOld, hdOld, hnlt, heq⟩ | ⟨hcond, heq⟩
    · -- the first edge does not update
      rw [heq]
      rw [heq] at ihl ihe ihm iht ihb ihq
      refine ⟨ihl, by rw [ihe, List.length_cons]; dsimp only; omega, ?_, ?_, ?_, ?_⟩
      · exact fun s d hd => ihm s d hd
      · intro s
        rcases iht s with hun | ⟨e2, he2, ht, h1, h2, h3, h4, h5⟩
        · exact Or.inl hun
        · exact Or.inr ⟨e2, List.mem_cons_of_mem _ he2, ht, h1, h2, h3, h4, h5⟩
      · intro e2 he2
        rcases List.mem_cons.mp he2 with he1 | he3
        · subst he1
          obtain ⟨d2, hd2, hle⟩ := ihm e2.2.1 dOld hdOld
          exact ⟨d2, hd2, le_trans hle (le_of_not_lt hnlt)⟩
        · exact ihb e2 he3
      · obtain ⟨pushes, hps, hspec⟩ := ihq
        refine ⟨pushes, hps, ?_⟩
        intro pp t hmem
        obtain ⟨e2, he2, h1, h2, h3⟩ := hspec pp t hmem
        exact ⟨e2, List.mem_cons_of_mem _ he2, h1, h2, h3⟩
    · -- the first edge updates its target
      rw [heq]
      rw [heq] at ihl ihe ihm iht ihb ihq
      have hself : lookupA (insertA x.dist e.2.1 (p0 + (e.2.2 : Prio))) e.2.1 =
          some (p0 + (e.2.2 : Prio)) := by
        rw [lookupA_insertA]
        simp
      refine ⟨ihl, by rw [ihe, List.length_cons]; dsimp only; omega, ?_, ?_, ?_, ?_⟩
      · intro s d hd
        by_cases hs : e.2.1 = s
        · subst hs
          have hcond2 : p0 + (e.2.2 : Prio) ≤ d := by
            rcases hcond with hnone | ⟨dOld, hdOld, hlt⟩
            · rw [hd] at hnone; exact absurd hnone (by simp)
            · rw [hd] at hdOld
              cases hdOld
              exact le_of_lt hlt
          obtain ⟨d2, hd2, hle⟩ := ihm e.2.1 (p0 + (e.2.2 : Prio)) hself
          exact ⟨d2, hd2, le_trans hle hcond2⟩
        · have hun : lookupA (insertA x.dist e.2.1 (p0 + (e.2.2 : Prio))) s =
              some d := by
            rw [lookupA_insertA, if_neg hs]; exact hd
          exact ihm s d hun
      · intro s
        rcases iht s with ⟨hu1, hu2, hu3⟩ | ⟨e2, he2, ht, h1, h2, h3, h4, h5⟩
        · by_cases hs : e.2.1 = s
          · subst hs
            refine Or.inr ⟨e, List.mem_cons_self .., rfl, ?_, ?_, ?_, ?_, hcond⟩
            · rw [hu1]; exact hself
            · rw [hu2, lookupA_insertA]; simp
            · rw [hu3, lookupA_insertA]; simp
            · obtain ⟨pushes, hps, _⟩ := ihq
              rw [hps]
              simp
          · refine Or.inl ⟨?_, ?_, ?_⟩
            · rw [hu1, lookupA_insertA, if_neg hs]
            · rw [hu2, lookupA_insertA, if_neg hs]
            · rw [hu3, lookupA_insertA, if_neg hs]
        · refine Or.inr ⟨e2, List.mem_cons_of_mem _ he2, ht, h1, h2, h3, h4, ?_⟩
          by_cases hs : e.2.1 = s
          · subst hs
            rcases h5 with hnone | ⟨dOld, hdOld, hlt⟩
            · rw [hself] at hnone
              exact absurd hnone (by simp)
            · rw [hself] at hdOld
              cases hdOld
              rcases hcond with hnone2 | ⟨dOld2, hdOld2, hlt2⟩
              · exact Or.inl hnone2
              · exact Or.inr ⟨dOld2, hdOld2, lt_trans hlt hlt2⟩
          · rcases h5 with hnone | ⟨dOld, hdOld, hlt⟩
            · rw [lookupA_insertA, if_neg hs] at hnone
              exact Or.inl hnone
            · rw [lookupA_insertA, if_neg hs] at hdOld
              exact Or.inr ⟨dOld, hdOld, hlt⟩
      · intro e2 he2
        rcases List.mem_cons.mp he2 with he1 | he3
        · subst he1
          obtain ⟨d2, hd2, hle⟩ := ihm e2.2.1 (p0 + (e2.2.2 : Prio)) hself
          exact ⟨d2, hd2, hle⟩
        · exact ihb e2 he3
      · obtain ⟨pushes, hps, hspec⟩ := ihq
        refine ⟨(p0 + (e.2.2 : Prio) + h e.2.1, e.2.1) :: pushes, ?_, ?_⟩
        · rw [hps]; simp
        · intro pp t hmem
          rcases List.mem_cons.mp hmem with h1 | h2
          · cases h1
            obtain ⟨d2, hd2, hle⟩ := ihm e.2.1 (p0 + (e.2.2 : Prio)) hself
            exact ⟨e, List.mem_cons_self .., rfl, rfl, d2, hd2, hle⟩
          · obtain ⟨e2, he2, hh1, hh2, hh3⟩ := hspec pp t h2
            exact ⟨e2, List.mem_cons_of_mem _ he2, hh1, hh2, hh3⟩

theorem foldRelax_frozen (h : State → Prio) (p0 : Prio) (s0 : State) (x : Cfg)
    (es : List Edge)
    (hall : ∀ e ∈ es, ∃ d, lookupA x.dist e.2.1 = some d ∧
      ¬ (p0 + (e.2.2 : Prio) < d)) :
    List.foldl (relaxOne h p0 s0) x es =
      { x with explored := x.explored + es.length } := by
  induction es generalizing x with
  | nil => simp
  | cons e rest ih =>
    obtain ⟨d, hd, hnlt⟩ := hall e (List.mem_cons_self ..)
    rcases relaxOne_cases h p0 s0 x e with ⟨dOld, hdOld, _, heq⟩ | ⟨hcond, heq⟩
    · simp only [List.foldl_cons, heq]
      have hall2 : ∀ e2 ∈ rest,
          ∃ d2, lookupA ({ x with explored := x.explored + 1 } : Cfg).dist e2.2.1 = some d2 ∧
            ¬ (p0 + (e2.2.2 : Prio) < d2) := by
        intro e2 he2
        exact hall e2 (List.mem_cons_of_mem _ he2)
      rw [ih _ hall2]
      simp only [List.length_cons]
      congr 1
      omega
    · exfalso
      rcases hcond with hnone | ⟨dOld, hdOld, hlt⟩
      · rw [hd] at hnone; exact Option.noConfusion hnone
      · rw [hd] at hdOld
        cases hdOld
        exact hnlt hlt

/-- Invariants the search loop maintains over its working set (for a
non-negative heuristic and non-negative rule costs): the three maps share
one domain of discovered states; the initial state stays bound to cost `0`,
no predecessor and no action; every predecessor link was written together
with its action when its source was popped and expanded; every frontier
entry carries at least the recorded best cost plus the heuristic (the
initial `(0, initial-state)` entry apart); for every discovered state the
entry at exactly its recorded cost is still in the frontier unless that
entry was already popped and expanded; and every expanded entry failed the
goal test and had each of its successors relaxed to at most its popped
priority plus the edge cost. -/
structure Inv (sys : System) (c : Cfg) : Prop where
  dom_prev : ∀ s, (lookupA c.dist s).isSome ↔ (lookupA c.prev s).isSome
  dom_acts : ∀ s, (lookupA c.dist s).isSome ↔ (lookupA c.acts s).isSome
  queue_dom : ∀ p s, (p, s) ∈ c.queue → (lookupA c.dist s).isSome
  keys_eq : ∀ s, (lookupA c.dist s).isSome →
    s.map Prod.fst = sys.init.map Prod.fst
  init_dist : lookupA c.dist sys.init = some 0
  init_prev : lookupA c.prev sys.init = some none
  init_acts : lookupA c.acts sys.init = some none
  queue_nonneg : ∀ p s, (p, s) ∈ c.queue → 0 ≤ p
  dist_nonneg : ∀ s d, lookupA c.dist s = some d → 0 ≤ d
  prev_none : ∀ s, lookupA c.prev s = some none → s = sys.init
  link : ∀ s u, lookupA c.prev s = some (some u) →
    ∃ a cq d du, lookupA c.acts s = some (some a) ∧
      IsEdge sys.recipes u a s cq ∧
      lookupA c.dist s = some d ∧ lookupA c.dist u = some du ∧
      (d = du + (cq : Prio) + sys.h u ∨ (u = sys.init ∧ d = (cq : Prio))) ∧
      (∃ q2, (q2, u) ∈ c.expLog)
  queue_ge : ∀ p s, (p, s) ∈ c.queue →
    ∃ d, lookupA c.dist s = some d ∧
      (d + sys.h s ≤ p ∨ (s = sys.init ∧ p = 0 ∧ d = 0))
  dist_mem : ∀ s d, lookupA c.dist s = some d →
    (d + sys.h s, s) ∈ c.queue ∨ (d + sys.h s, s) ∈ c.expLog ∨
      (s = sys.init ∧ d = 0 ∧
        ((0, sys.init) ∈ c.queue ∨ (0, sys.init) ∈ c.expLog))
  logged : ∀ q s, (q, s) ∈ c.expLog →
    is_goal sys.goal s = some false ∧
      ∃ es, graphGen sys.recipes s = some es ∧
        ∀ e ∈ es, ∃ d2, lookupA c.dist e.2.1 = some d2 ∧
          d2 ≤ q + (e.2.2 : Prio)
  log_dist : ∀ q s, (q, s) ∈ c.expLog →
    ∃ d, lookupA c.dist s = some d ∧ d ≤ q
  log_le_queue : ∀ q s p t, (q, s) ∈ c.expLog → (p, t) ∈ c.queue → q ≤ p

theorem lookupA_singleton {α : Type} (k s : State) (a : α) :
    lookupA [(k, a)] s = if k = s then some a else none := by
  simp [lookupA]

theorem inv_cfg0 (sys : System) : Inv sys (cfg0 sys) := by
  have hq : ∀ p s, (p, s) ∈ (cfg0 sys).queue → p = 0 ∧ s = sys.init := by
    intro p s hm
    simp only [cfg0, List.mem_singleton] at hm
    exact ⟨congrArg Prod.fst hm, congrArg Prod.snd hm⟩
  have hd : ∀ s, (lookupA (cfg0 sys).dist s).isSome → s = sys.init := by
    intro s hs
    simp only [cfg0] at hs
    rw [lookupA_singleton] at hs
    by_cases h : sys.init = s
    · exact h.symm
    · rw [if_neg h] at hs; simp at hs
  refine ⟨?_, ?_, ?_, ?_, ?_, ?_, ?_, ?_, ?_, ?_, ?_, ?_, ?_, ?_, ?_, ?_⟩
  · intro s
    simp only [cfg0]
    rw [lookupA_singleton, lookupA_singleton]
    by_cases h : sys.init = s <;> simp [h]
  · intro s
    simp only [cfg0]
    rw [lookupA_singleton, lookupA_singleton]
    by_cases h : sys.init = s <;> simp [h]
  · intro p s hm
    obtain ⟨hp, hs⟩ := hq p s hm
    subst hs
    simp [cfg0, lookupA_singleton]
  · intro s hs
    rw [hd s hs]
  · simp [cfg0, lookupA_singleton]
  · simp [cfg0, lookupA_singleton]
  · simp [cfg0, lookupA_singleton]
  · intro p s hm
    obtain ⟨hp, _⟩ := hq p s hm
    subst hp
    exact le_refl 0
  · intro s d hsd
    have hs : (lookupA (cfg0 sys).dist s).isSome := by rw [hsd]; rfl
    have := hd s hs
    subst this
    simp only [cfg0] at hsd
    rw [lookupA_singleton, if_pos rfl] at hsd
    cases hsd
    exact le_refl 0
  · intro s hsp
    simp only [cfg0] at hsp
    rw [lookupA_singleton] at hsp
    by_cases h : sys.init = s
    · exact h.symm
    · rw [if_neg h] at hsp; simp at hsp
  · intro s u hsp
    simp only [cfg0] at hsp
    rw [lookupA_singleton] at hsp
    by_cases h : sys.init = s
    · rw [if_pos h] at hsp; simp at hsp
    · rw [if_neg h] at hsp; simp at hsp
  · intro p s hm
    obtain ⟨hp, hs⟩ := hq p s hm
    subst hp; subst hs
    refine ⟨0, by simp [cfg0, lookupA_singleton], Or.inr ⟨rfl, rfl, rfl⟩⟩
  · intro s d hsd
    have hs : (lookupA (cfg0 sys).dist s).isSome := by rw [hsd]; rfl
    have heq := hd s hs
    subst heq
    simp only [cfg0] at hsd
    rw [lookupA_singleton, if_pos rfl] at hsd
    cases hsd
    exact Or.inr (Or.inr ⟨rfl, rfl, Or.inl (by simp [cfg0])⟩)
  · intro q s hm
    simp [cfg0] at hm
  · intro q s hm
    simp [cfg0] at hm
  · intro q s p t hm
    simp [cfg0] at hm

theorem dist_le_of_queue_ge (sys : System) (p : Prio) (s : State) (d : Prio)
    (hh : ∀ s2, 0 ≤ sys.h s2)
    (hge : d + sys.h s ≤ p ∨ (s = sys.init ∧ p = 0 ∧ d = 0)) : d ≤ p := by
  rcases hge with h1 | ⟨_, hp, hd⟩
  · exact le_trans (le_add_of_nonneg_right (hh s)) h1
  · rw [hp, hd]

theorem stale_pop_no_relax (sys : System) (c : Cfg) (hinv : Inv sys c)
    (hh : ∀ s, 0 ≤ sys.h s)
    (p0 : Prio) (s0 : State) (rest : List (Prio × State))
    (hpop : popMin c.queue = some ((p0, s0), rest))
    (d0 : Prio) (hd0 : lookupA c.dist s0 = some d0)
    (hstale : d0 + sys.h s0 < p0) :
    is_goal sys.goal s0 = some false ∧
      ∃ es, graphGen sys.recipes s0 = some es ∧
        ∀ e ∈ es, ∃ d2, lookupA c.dist e.2.1 = some d2 ∧
          ¬ (p0 + (e.2.2 : Prio) < d2) := by
  obtain ⟨hmem, hmin, hperm⟩ := popMin_inversion c.queue (p0, s0) rest hpop
  have hp0 : 0 ≤ p0 := hinv.queue_nonneg p0 s0 hmem
  rcases hinv.dist_mem s0 d0 hd0 with hq | hl | ⟨hsi, hdz, hini⟩
  · exact absurd (hmin (d0 + sys.h s0, s0) hq) (not_le.mpr hstale)
  · obtain ⟨hgoal, es, hgr, hbound⟩ := hinv.logged (d0 + sys.h s0) s0 hl
    refine ⟨hgoal, es, hgr, ?_⟩
    intro e he
    obtain ⟨d2, hd2, hle⟩ := hbound e he
    refine ⟨d2, hd2, not_lt.mpr ?_⟩
    exact le_of_lt (lt_of_le_of_lt hle
      (WithTop.add_lt_add_right (WithTop.coe_ne_top) hstale))
  · subst hsi
    subst hdz
    rcases hini with hqi | hli
    · have h1 := hmin (0, sys.init) hqi
      have h2 : (0 : Prio) + sys.h sys.init < p0 := hstale
      have h3 : (0 : Prio) ≤ 0 + sys.h sys.init :=
        le_add_of_nonneg_right (hh sys.init)
      exact absurd h1 (not_le.mpr (lt_of_le_of_lt h3 h2))
    · obtain ⟨hgoal, es, hgr, hbound⟩ := hinv.logged 0 sys.init hli
      refine ⟨hgoal, es, hgr, ?_⟩
      intro e he
      obtain ⟨d2, hd2, hle⟩ := hbound e he
      refine ⟨d2, hd2, not_lt.mpr ?_⟩
      calc d2 ≤ 0 + (e.2.2 : Prio) := hle
        _ ≤ p0 + (e.2.2 : Prio) := add_le_add_right hp0 _

theorem stale_pop_step (sys : System) (c : Cfg) (hinv : Inv sys c)
    (hh : ∀ s, 0 ≤ sys.h s)
    (p0 : Prio) (s0 : State) (rest : List (Prio × State))
    (hpop : popMin c.queue = some ((p0, s0), rest))
    (d0 : Prio) (hd0 : lookupA c.dist s0 = some d0)
    (hstale : d0 + sys.h s0 < p0) :
    ∃ es, graphGen sys.recipes s0 = some es ∧
      stepOnce sys c = .cont
        { c with
          queue := rest
          expLog := (p0, s0) :: c.expLog
          explored := c.explored + es.length } := by
  obtain ⟨hgoal, es, hgr, hfrozen⟩ :=
    stale_pop_no_relax sys c hinv hh p0 s0 rest hpop d0 hd0 hstale
  refine ⟨es, hgr, ?_⟩
  simp only [stepOnce, hpop, hgoal, hgr]
  rw [foldRelax_frozen sys.h p0 s0
    { c with queue := rest, expLog := (p0, s0) :: c.expLog } es hfrozen]

theorem inv_step (sys : System) (c c2 : Cfg) (hh : ∀ s, 0 ≤ sys.h s)
    (hc : ∀ r ∈ sys.recipes, 0 ≤ r.time)
    (hinv : Inv sys c) (hstep : stepOnce sys c = .cont c2) : Inv sys c2 := by
  simp only [stepOnce] at hstep
  cases hpop : popMin c.queue with
  | none => rw [hpop] at hstep; exact absurd hstep (by simp)
  | some er =>
    obtain ⟨⟨p0, s0⟩, rest⟩ := er
    rw [hpop] at hstep
    dsimp only at hstep
    cases hgoal : is_goal sys.goal s0 with
    | none => rw [hgoal] at hstep; exact absurd hstep (by simp)
    | some b =>
      rw [hgoal] at hstep
      cases b with
      | true =>
        dsimp only at hstep
        exfalso
        cases hrw : reconWalk c.prev c.acts (c.prev.length + 1) (some s0) [] with
        | none => rw [hrw] at hstep; exact absurd hstep (by simp)
        | some path => rw [hrw] at hstep; exact absurd hstep (by simp)
      | false =>
        dsimp only at hstep
        cases hgr : graphGen sys.recipes s0 with
        | none => rw [hgr] at hstep; exact absurd hstep (by simp)
        | some es =>
          rw [hgr] at hstep
          dsimp only at hstep
          cases hstep
          obtain ⟨hmem, hmin, hperm⟩ := popMin_inversion c.queue (p0, s0) rest hpop
          have hqv : ∀ f, f ∈ c.queue ↔ f = (p0, s0) ∨ f ∈ rest := by
            intro f
            rw [hperm.mem_iff]
            exact List.mem_cons
          have hp0 : 0 ≤ p0 := hinv.queue_nonneg p0 s0 hmem
          obtain ⟨d0, hd0, hge⟩ := hinv.queue_ge p0 s0 hmem
          have hd0p : d0 ≤ p0 := dist_le_of_queue_ge sys p0 s0 d0 hh hge
          have hcostP : ∀ e ∈ es, (0 : Prio) ≤ (e.2.2 : Prio) := by
            intro e he
            obtain ⟨r, hr, _, ht, _, _⟩ := graphGen_mem sys.recipes s0 es hgr e he
            have : (0 : ℤ) ≤ e.2.2 := ht ▸ hc r hr
            exact_mod_cast this
          by_cases hstale : d0 + sys.h s0 < p0
          · -- stale pop: nothing is relaxed
            obtain ⟨hgoalf, es3, hgr3, hfrozen⟩ :=
              stale_pop_no_relax sys c hinv hh p0 s0 rest hpop d0 hd0 hstale
            rw [hgr] at hgr3
            cases hgr3
            rw [foldRelax_frozen sys.h p0 s0
              { c with queue := rest, expLog := (p0, s0) :: c.expLog } es
              hfrozen]
            have hrestq : ∀ f, f ∈ rest → f ∈ c.queue := by
              intro f hf
              exact (hqv f).mpr (Or.inr hf)
            refine ⟨hinv.dom_prev, hinv.dom_acts, ?_, hinv.keys_eq,
              hinv.init_dist, hinv.init_prev, hinv.init_acts, ?_,
              hinv.dist_nonneg, hinv.prev_none, ?_, ?_, ?_, ?_, ?_, ?_⟩
            · intro p s hm
              exact hinv.queue_dom p s (hrestq _ hm)
            · intro p s hm
              exact hinv.queue_nonneg p s (hrestq _ hm)
            · intro s u hsp
              obtain ⟨a, cq, d, du, h1, h2, h3, h4, h5, q2, h6⟩ :=
                hinv.link s u hsp
              exact ⟨a, cq, d, du, h1, h2, h3, h4, h5, q2,
                List.mem_cons_of_mem _ h6⟩
            · intro p s hm
              exact hinv.queue_ge p s (hrestq _ hm)
            · intro s d hsd
              rcases hinv.dist_mem s d hsd with hq | hl | ⟨hsi, hdz, hini⟩
              · rcases (hqv _).mp hq with heq2 | hr2
                · have hs0 : s = s0 := congrArg Prod.snd heq2
                  have hpe : d + sys.h s = p0 := congrArg Prod.fst heq2
                  subst hs0
                  rw [hd0] at hsd
                  cases hsd
                  exact absurd hpe (ne_of_lt hstale)
                · exact Or.inl hr2
              · exact Or.inr (Or.inl (List.mem_cons_of_mem _ hl))
              · rcases hini with hqi | hli
                · rcases (hqv _).mp hqi with heq2 | hr2
                  · exfalso
                    have hs0 : sys.init = s0 := congrArg Prod.snd heq2
                    have hpe : (0 : Prio) = p0 := congrArg Prod.fst heq2
                    rw [← hs0] at hd0 hstale
                    rw [hinv.init_dist] at hd0
                    cases hd0
                    rw [← hpe] at hstale
                    have : (0 : Prio) ≤ 0 + sys.h sys.init :=
                      le_add_of_nonneg_right (hh sys.init)
                    exact absurd (lt_of_le_of_lt this hstale) (lt_irrefl 0)
                  · exact Or.inr (Or.inr ⟨hsi, hdz, Or.inl hr2⟩)
                · exact Or.inr (Or.inr ⟨hsi, hdz,
                    Or.inr (List.mem_cons_of_mem _ hli)⟩)
            · intro q s hm
              rcases List.mem_cons.mp hm with hhd | htl
              · have hq2 : q = p0 := congrArg Prod.fst hhd
                have hs2 : s = s0 := congrArg Prod.snd hhd
                subst hq2; subst hs2
                refine ⟨hgoalf, es, hgr, ?_⟩
                intro e he
                obtain ⟨d2, hd2, hnlt⟩ := hfrozen e he
                exact ⟨d2, hd2, not_lt.mp hnlt⟩
              · obtain ⟨hg2, es4, hgr4, hb4⟩ := hinv.logged q s htl
                exact ⟨hg2, es4, hgr4, hb4⟩
            · intro q s hm
              rcases List.mem_cons.mp hm with hhd | htl
              · have hq2 : q = p0 := congrArg Prod.fst hhd
                have hs2 : s = s0 := congrArg Prod.snd hhd
                subst hq2; subst hs2
                exact ⟨d0, hd0, hd0p⟩
              · exact hinv.log_dist q s htl
            · intro q s p t hm hm2
              rcases List.mem_cons.mp hm with hhd | htl
              · have hq2 : q = p0 := congrArg Prod.fst hhd
                subst hq2
                exact hmin (p, t) (hrestq _ hm2)
              · exact hinv.log_le_queue q s p t htl (hrestq _ hm2)
          · -- non-stale pop: the popped priority matches the recorded cost
            have hp0eq : p0 = d0 + sys.h s0 ∨
                (s0 = sys.init ∧ p0 = 0 ∧ d0 = 0) := by
              rcases hge with h1 | h2
              · exact Or.inl (le_antisymm (not_lt.mp hstale) h1)
              · exact Or.inr h2
            have F := foldRelax_spec sys.h p0 s0
              { c with queue := rest, expLog := (p0, s0) :: c.expLog } es
            obtain ⟨Flog, Fexp, Fmono, Ftrip, Fbound, Fqueue⟩ := F
            dsimp only at Flog Fexp Fmono Ftrip Fbound Fqueue
            set y := List.foldl (relaxOne sys.h p0 s0)
              { c with queue := rest, expLog := (p0, s0) :: c.expLog } es with hy
            have hfix : ∀ t dt, lookupA c.dist t = some dt → dt ≤ p0 →
                lookupA y.dist t = lookupA c.dist t ∧
                lookupA y.prev t = lookupA c.prev t ∧
                lookupA y.acts t = lookupA c.acts t := by
              intro t dt hdt hle
              rcases Ftrip t with h | ⟨e, he, hts, h1, h2, h3, h4, hst⟩
              · exact h
              · exfalso
                rcases hst with hnone | ⟨dOld, hdOld, hlt⟩
                · rw [hdt] at hnone; exact Option.noConfusion hnone
                · rw [hdt] at hdOld
                  cases hdOld
                  have : p0 ≤ p0 + (e.2.2 : Prio) :=
                    le_add_of_nonneg_right (hcostP e he)
                  exact absurd (lt_of_lt_of_le hlt hle) (not_lt.mpr this)
            have hfixInit := hfix sys.init 0 hinv.init_dist hp0
            have hfixS0 := hfix s0 d0 hd0 hd0p
            have hfixLog : ∀ q t, (q, t) ∈ c.expLog →
                lookupA y.dist t = lookupA c.dist t ∧
                lookupA y.prev t = lookupA c.prev t ∧
                lookupA y.acts t = lookupA c.acts t := by
              intro q t hm
              obtain ⟨dt, hdt, hdq⟩ := hinv.log_dist q t hm
              exact hfix t dt hdt
                (le_trans hdq (hinv.log_le_queue q t p0 s0 hm hmem))
            obtain ⟨pushes, hqeq, hpush⟩ := Fqueue
            have hrestq : ∀ f, f ∈ rest → f ∈ c.queue := by
              intro f hf
              exact (hqv f).mpr (Or.inr hf)
            have hresty : ∀ f, f ∈ rest → f ∈ y.queue := by
              intro f hf
              rw [hqeq]
              exact List.mem_append_left _ hf
            have hlogy : y.expLog = (p0, s0) :: c.expLog := Flog
            refine ⟨?_, ?_, ?_, ?_, ?_, ?_, ?_, ?_, ?_, ?_, ?_, ?_, ?_, ?_, ?_, ?_⟩
            · intro s
              rcases Ftrip s with ⟨h1, h2, _⟩ | ⟨e, he, hts, h1, h2, h3, _, _⟩
              · rw [h1, h2]; exact hinv.dom_prev s
              · rw [h1, h2]; simp
            · intro s
              rcases Ftrip s with ⟨h1, _, h3⟩ | ⟨e, he, hts, h1, _, h3, _, _⟩
              · rw [h1, h3]; exact hinv.dom_acts s
              · rw [h1, h3]; simp
            · intro p s hm
              rw [hqeq] at hm
              rcases List.mem_append.mp hm with hr2 | hp2
              · have := hinv.queue_dom p s (hrestq _ hr2)
                rw [Option.isSome_iff_exists] at this
                obtain ⟨d, hd⟩ := this
                obtain ⟨d2, hd2, _⟩ := Fmono s d hd
                rw [hd2]; rfl
              · obtain ⟨e, he, hts, _, d2, hd2, _⟩ := hpush p s hp2
                rw [hd2]; rfl
            · intro s hs
              rcases Ftrip s with ⟨h1, _, _⟩ | ⟨e, he, hts, _, _, _, _, _⟩
              · rw [h1] at hs
                exact hinv.keys_eq s hs
              · obtain ⟨r, hr, _, _, _, heff⟩ :=
                  graphGen_mem sys.recipes s0 es hgr e he
                have hks0 : s0.map Prod.fst = sys.init.map Prod.fst :=
                  hinv.keys_eq s0 (hinv.queue_dom p0 s0 hmem)
                rw [← hts, effect_keys r s0 e.2.1 heff]
                exact hks0
            · rw [hfixInit.1]; exact hinv.init_dist
            · rw [hfixInit.2.1]; exact hinv.init_prev
            · rw [hfixInit.2.2]; exact hinv.init_acts
            · intro p s hm
              rw [hqeq] at hm
              rcases List.mem_append.mp hm with hr2 | hp2
              · exact hinv.queue_nonneg p s (hrestq _ hr2)
              · obtain ⟨e, he, hts, hpp, _⟩ := hpush p s hp2
                rw [hpp]
                exact add_nonneg (add_nonneg hp0 (hcostP e he)) (hh s)
            · intro s d hsd
              rcases Ftrip s with ⟨h1, _, _⟩ | ⟨e, he, hts, h1, _, _, _, _⟩
              · rw [h1] at hsd
                exact hinv.dist_nonneg s d hsd
              · rw [h1] at hsd
                cases hsd
                exact add_nonneg hp0 (hcostP e he)
            · intro s hsp
              rcases Ftrip s with ⟨_, h2, _⟩ | ⟨e, he, hts, _, h2, _, _, _⟩
              · rw [h2] at hsp
                exact hinv.prev_none s hsp
              · rw [h2] at hsp
                simp at hsp
            · intro s u hsp
              rcases Ftrip s with ⟨h1, h2, h3⟩ | ⟨e, he, hts, h1, h2, h3, h4, _⟩
              · rw [h2] at hsp
                obtain ⟨a, cq, d, du, k1, k2, k3, k4, k5, q2, k6⟩ :=
                  hinv.link s u hsp
                refine ⟨a, cq, d, du, by rw [h3]; exact k1, k2,
                  by rw [h1]; exact k3, ?_, k5, q2, ?_⟩
                · rw [(hfixLog q2 u k6).1]
                  exact k4
                · rw [hlogy]
                  exact List.mem_cons_of_mem _ k6
              · rw [h2] at hsp
                have hu : u = s0 := by
                  have := Option.some.inj (Option.some.inj hsp)
                  exact this.symm
                rw [hu]
                obtain ⟨r, hr, hrn, hrt, hrc, hre⟩ :=
                  graphGen_mem sys.recipes s0 es hgr e he
                refine ⟨e.1, e.2.2, p0 + (e.2.2 : Prio), d0, h3,
                  ⟨r, hr, hrn, hrt, hrc, by rw [hts] at hre; exact hre⟩,
                  h1, by rw [hfixS0.1]; exact hd0, ?_, p0, ?_⟩
                · rcases hp0eq with hne | ⟨hsi, hpz, hdz⟩
                  · left
                    rw [hne]
                    rw [add_right_comm]
                  · exact Or.inr ⟨hsi, by rw [hpz, zero_add]⟩
                · rw [hlogy]
                  exact List.mem_cons_self ..
            · intro p s hm
              rw [hqeq] at hm
              rcases List.mem_append.mp hm with hr2 | hp2
              · obtain ⟨d, hd, hdisj⟩ := hinv.queue_ge p s (hrestq _ hr2)
                rcases hdisj with h1 | ⟨hsi, hpz, hdz⟩
                · obtain ⟨d2, hd2, hle⟩ := Fmono s d hd
                  exact ⟨d2, hd2, Or.inl (le_trans
                    (add_le_add_right hle _) h1)⟩
                · subst hsi
                  subst hdz
                  refine ⟨0, by rw [hfixInit.1]; exact hinv.init_dist,
                    Or.inr ⟨rfl, hpz, rfl⟩⟩
              · obtain ⟨e, he, hts, hpp, d2, hd2, hle⟩ := hpush p s hp2
                refine ⟨d2, hd2, Or.inl ?_⟩
                rw [hpp]
                exact add_le_add_right hle _
            · intro s d hsd
              rcases Ftrip s with ⟨h1, _, _⟩ | ⟨e, he, hts, h1, _, _, h4, _⟩
              · rw [h1] at hsd
                rcases hinv.dist_mem s d hsd with hq | hl | ⟨hsi, hdz, hini⟩
                · rcases (hqv _).mp hq with heq2 | hr2
                  · right; left
                    rw [hlogy, heq2]
                    exact List.mem_cons_self ..
                  · exact Or.inl (hresty _ hr2)
                · right; left
                  rw [hlogy]
                  exact List.mem_cons_of_mem _ hl
                · rcases hini with hqi | hli
                  · rcases (hqv _).mp hqi with heq2 | hr2
                    · refine Or.inr (Or.inr ⟨hsi, hdz, Or.inr ?_⟩)
                      rw [hlogy, heq2]
                      exact List.mem_cons_self ..
                    · exact Or.inr (Or.inr ⟨hsi, hdz, Or.inl (hresty _ hr2)⟩)
                  · refine Or.inr (Or.inr ⟨hsi, hdz, Or.inr ?_⟩)
                    rw [hlogy]
                    exact List.mem_cons_of_mem _ hli
              · rw [h1] at hsd
                cases hsd
                exact Or.inl h4
            · intro q s hm
              rw [hlogy] at hm
              rcases List.mem_cons.mp hm with hhd | htl
              · have hq2 : q = p0 := congrArg Prod.fst hhd
                have hs2 : s = s0 := congrArg Prod.snd hhd
                subst hq2; subst hs2
                refine ⟨hgoal, es, hgr, ?_⟩
                intro e he
                exact Fbound e he
              · obtain ⟨hg2, es4, hgr4, hb4⟩ := hinv.logged q s htl
                refine ⟨hg2, es4, hgr4, ?_⟩
                intro e he
                obtain ⟨d2, hd2, hle⟩ := hb4 e he
                obtain ⟨d3, hd3, hle3⟩ := Fmono e.2.1 d2 hd2
                exact ⟨d3, hd3, le_trans hle3 hle⟩
            · intro q s hm
              rw [hlogy] at hm
              rcases List.mem_cons.mp hm with hhd | htl
              · have hq2 : q = p0 := congrArg Prod.fst hhd
                have hs2 : s = s0 := congrArg Prod.snd hhd
                subst hq2; subst hs2
                exact ⟨d0, by rw [hfixS0.1]; exact hd0, hd0p⟩
              · obtain ⟨d, hd, hdq⟩ := hinv.log_dist q s htl
                obtain ⟨d2, hd2, hle⟩ := Fmono s d hd
                exact ⟨d2, hd2, le_trans hle hdq⟩
            · intro q s p t hm hm2
              rw [hlogy] at hm
              rw [hqeq] at hm2
              have hqlep0 : q ≤ p0 := by
                rcases List.mem_cons.mp hm with hhd | htl
                · exact le_of_eq (congrArg Prod.fst hhd)
                · exact hinv.log_le_queue q s p0 s0 htl hmem
              rcases List.mem_append.mp hm2 with hr2 | hp2
              · rcases List.mem_cons.mp hm with hhd | htl
                · have hq2 : q = p0 := congrArg Prod.fst hhd
                  subst hq2
                  exact hmin (p, t) (hrestq _ hr2)
                · exact hinv.log_le_queue q s p t htl (hrestq _ hr2)
              · obtain ⟨e, he, hts, hpp, _⟩ := hpush p t hp2
                rw [hpp]
                calc q ≤ p0 := hqlep0
                  _ ≤ p0 + (e.2.2 : Prio) :=
                    le_add_of_nonneg_right (hcostP e he)
                  _ ≤ p0 + (e.2.2 : Prio) + sys.h t :=
                    le_add_of_nonneg_right (hh t)

theorem inv_stepIter (sys : System) (hh : ∀ s, 0 ≤ sys.h s)
    (hc : ∀ r ∈ sys.recipes, 0 ≤ r.time) :
    ∀ (n : ℕ) (c c2 : Cfg), Inv sys c → stepIter sys n c = some c2 →
      Inv sys c2 := by
  intro n
  induction n with
  | zero =>
    intro c c2 hinv hiter
    simp only [stepIter] at hiter
    cases hiter
    exact hinv
  | succ n ih =>
    intro c c2 hinv hiter
    simp only [stepIter] at hiter
    cases hso : stepOnce sys c with
    | cont c3 =>
      rw [hso] at hiter
      exact ih c3 c2 (inv_step sys c c3 hh hc hinv hso) hiter
    | found p => rw [hso] at hiter; exact absurd hiter (by simp)
    | crash => rw [hso] at hiter; exact absurd hiter (by simp)

/-- Claim C3 (amended): the engine does not skip a stale pop — it
goal-checks and re-expands it, the `explored_states` counter growing by the
number of yielded successors — but with a non-negative heuristic the
relaxation of a stale pop never succeeds, so the iteration changes neither
the cost map nor the predecessor/action maps and pushes nothing: observably
the stale entry is ignored.  Reachability is over the expanding iterations
of `search`'s loop. -/
theorem C3_stale_pop_reexpands_but_changes_no_map (sys : System) (n : ℕ)
    (c : Cfg) (p0 : Prio) (s0 : State) (rest : List (Prio × State))
    (d0 : Prio)
    (hh : ∀ s, 0 ≤ sys.h s) (hc : ∀ r ∈ sys.recipes, 0 ≤ r.time)
    (hreach : stepIter sys n (cfg0 sys) = some c)
    (hpop : popMin c.queue = some ((p0, s0), rest))
    (hd0 : lookupA c.dist s0 = some d0)
    (hstale : d0 + sys.h s0 < p0) :
    ∃ es, graphGen sys.recipes s0 = some es ∧
      stepOnce sys c = .cont
        { c with
          queue := rest
          expLog := (p0, s0) :: c.expLog
          explored := c.explored + es.length } := by
  have hinv := inv_stepIter sys hh hc n (cfg0 sys) c (inv_cfg0 sys) hreach
  exact stale_pop_step sys c hinv hh p0 s0 rest hpop d0 hd0 hstale

/-- The concrete working set of the claim C3 exhibit after four expanding
iterations, just before the stale entry `(10, stA3)` is popped. -/
def c3cfg4 : Cfg := (stepIter sysC3 4 (cfg0 sysC3)).getD (cfg0 sysC3)

/-- The frontier left when the stale entry of the exhibit is popped. -/
def c3rest : List (Prio × State) :=
  ((popMin c3cfg4.queue).getD ((0, []), [])).2

/-- Claim C3 witness: the amended theorem applied to the exhibit's fifth
iteration, hypotheses discharged by computation. -/
theorem C3_stale_pop_witness :
    stepIter sysC3 4 (cfg0 sysC3) = some c3cfg4 ∧
      ∃ es, graphGen sysC3.recipes stA3 = some es ∧
        stepOnce sysC3 c3cfg4 = .cont
          { c3cfg4 with
            queue := c3rest
            expLog := ((10 : Prio), stA3) :: c3cfg4.expLog
            explored := c3cfg4.explored + es.length } :=
  ⟨by decide,
    C3_stale_pop_reexpands_but_changes_no_map sysC3 4 c3cfg4 10 stA3 c3rest 3
      (fun _ => le_refl 0) (by decide) (by decide) (by decide) (by decide)
      (by decide)⟩

theorem reconWalk_none (prev : List (State × Option State))
    (acts : List (State × Option String)) (fuel : ℕ)
    (acc : List (State × Option String)) :
    reconWalk prev acts fuel none acc = some acc := by
  cases fuel with
  | zero => simp [reconWalk, truthy]
  | succ f => simp [reconWalk]

/-- One path step as claim C9 states it: the later pair's action names a
rule of the set that is feasible at the earlier state and rewrites it to
the later state. -/
def EdgeStep (recipes : List Recipe) (x y : State × Option String) : Prop :=
  ∃ r, r ∈ recipes ∧ y.2 = some r.name ∧
    check r x.1 = some true ∧ effect r x.1 = some y.1

theorem dist_state_ne_nil (sys : System) (c : Cfg) (hinv : Inv sys c)
    (hne : sys.init ≠ []) (s : State) (hs : (lookupA c.dist s).isSome) :
    s ≠ [] := by
  intro hnil
  have hkeys := hinv.keys_eq s hs
  rw [hnil] at hkeys
  cases hi : sys.init with
  | nil => exact hne hi
  | cons a l =>
    rw [hi] at hkeys
    simp at hkeys

theorem reconWalk_spec (sys : System) (c : Cfg) (hinv : Inv sys c)
    (hne : sys.init ≠ []) :
    ∀ (fuel : ℕ) (s : State) (acc out : List (State × Option String))
      (d : Prio),
      lookupA c.dist s = some d →
      reconWalk c.prev c.acts fuel (some s) acc = some out →
      ∃ pfx av, out = pfx ++ acc ∧ pfx ≠ [] ∧
        pfx.head? = some (sys.init, none) ∧
        lookupA c.acts s = some av ∧
        pfx.getLast? = some (s, av) ∧
        List.Chain' (EdgeStep sys.recipes) pfx := by
  intro fuel
  induction fuel with
  | zero =>
    intro s acc out d hd hw
    exfalso
    have hsne : s ≠ [] :=
      dist_state_ne_nil sys c hinv hne s (by rw [hd]; rfl)
    have hemp : s.isEmpty = false := by
      cases s with
      | nil => exact absurd rfl hsne
      | cons a l => rfl
    simp [reconWalk, truthy, hemp] at hw
  | succ fuel ih =>
    intro s acc out d hd hw
    have hsne : s ≠ [] :=
      dist_state_ne_nil sys c hinv hne s (by rw [hd]; rfl)
    have hemp : s.isEmpty = false := by
      cases s with
      | nil => exact absurd rfl hsne
      | cons a l => rfl
    simp only [reconWalk, hemp, Bool.false_eq_true, if_false] at hw
    have hprevS : (lookupA c.prev s).isSome :=
      (hinv.dom_prev s).mp (by rw [hd]; rfl)
    have hactsS : (lookupA c.acts s).isSome :=
      (hinv.dom_acts s).mp (by rw [hd]; rfl)
    obtain ⟨pv, hpv⟩ := Option.isSome_iff_exists.mp hprevS
    obtain ⟨av, hav⟩ := Option.isSome_iff_exists.mp hactsS
    rw [hpv, hav] at hw
    dsimp only at hw
    cases pv with
    | none =>
      have hsinit : s = sys.init := hinv.prev_none s hpv
      subst hsinit
      have havn : av = none := by
        rw [hinv.init_acts] at hav
        exact (Option.some.inj hav).symm
      subst havn
      rw [reconWalk_none] at hw
      cases hw
      refine ⟨[(sys.init, none)], none, rfl, by simp, rfl, hav, rfl, ?_⟩
      exact List.chain'_singleton _
    | some u =>
      obtain ⟨a, cq, d2, du, hacts2, hedge, _, hdu, _, _⟩ :=
        hinv.link s u hpv
      have hava : av = some a := by
        rw [hacts2] at hav
        exact (Option.some.inj hav).symm
      obtain ⟨pfx_u, av_u, hout, hne_u, hhead, havu, hlast, hchain⟩ :=
        ih u ((s, av) :: acc) out du hdu hw
      refine ⟨pfx_u ++ [(s, av)], av, ?_, by simp, ?_, hav, ?_, ?_⟩
      · rw [hout]
        simp
      · cases pfx_u with
        | nil => exact absurd rfl hne_u
        | cons x l => simpa using hhead
      · simp
      · rw [List.chain'_append]
        refine ⟨hchain, List.chain'_singleton _, ?_⟩
        intro x hx y hy
        rw [hlast] at hx
        cases hx
        simp only [List.head?_cons, Option.mem_def] at hy
        cases hy
        obtain ⟨r, hr, hrn, hrt, hrc, hre⟩ := hedge
        exact ⟨r, hr, by rw [hava, hrn], hrc, hre⟩

theorem stepOnce_found_inv (sys : System) (c : Cfg)
    (p : List (State × Option String)) (h : stepOnce sys c = .found p) :
    ∃ p0 s0 rest, popMin c.queue = some ((p0, s0), rest) ∧
      is_goal sys.goal s0 = some true ∧
      reconWalk c.prev c.acts (c.prev.length + 1) (some s0) [] = some p := by
  simp only [stepOnce] at h
  cases hpop : popMin c.queue with
  | none => rw [hpop] at h; exact absurd h (by simp)
  | some er =>
    obtain ⟨⟨p0, s0⟩, rest⟩ := er
    rw [hpop] at h
    dsimp only at h
    cases hgoal : is_goal sys.goal s0 with
    | none => rw [hgoal] at h; exact absurd h (by simp)
    | some b =>
      rw [hgoal] at h
      cases b with
      | false =>
        dsimp only at h
        exfalso
        cases hgr : graphGen sys.recipes s0 with
        | none => rw [hgr] at h; exact absurd h (by simp)
        | some es => rw [hgr] at h; exact absurd h (by simp)
      | true =>
        dsimp only at h
        cases hrw : reconWalk c.prev c.acts (c.prev.length + 1) (some s0) [] with
        | none => rw [hrw] at h; exact absurd h (by simp)
        | some path =>
          rw [hrw] at h
          simp only at h
          cases h
          exact ⟨p0, s0, rest, rfl, hgoal, hrw⟩

theorem runSearch_found (sys : System) (hh : ∀ s, 0 ≤ sys.h s)
    (hc : ∀ r ∈ sys.recipes, 0 ≤ r.time) :
    ∀ (fuel k : ℕ) (c : Cfg) (p : List (State × Option String)),
      Inv sys c → runSearch sys fuel k c = .found p →
      ∃ c2 p0 s0 rest, Inv sys c2 ∧
        popMin c2.queue = some ((p0, s0), rest) ∧
        is_goal sys.goal s0 = some true ∧
        reconWalk c2.prev c2.acts (c2.prev.length + 1) (some s0) [] = some p := by
  intro fuel
  induction fuel with
  | zero =>
    intro k c p _ hrun
    simp only [runSearch] at hrun
    exact SearchResult.noConfusion hrun
  | succ fuel ih =>
    intro k c p hinv hrun
    simp only [runSearch] at hrun
    by_cases hq : c.queue = []
    · rw [if_pos hq] at hrun
      exact absurd hrun (by simp)
    · rw [if_neg hq] at hrun
      by_cases htf : sys.tf k < sys.limit
      · rw [if_pos htf] at hrun
        cases hso : stepOnce sys c with
        | found p2 =>
          rw [hso] at hrun
          simp only at hrun
          cases hrun
          obtain ⟨p0, s0, rest, h1, h2, h3⟩ := stepOnce_found_inv sys c p hso
          exact ⟨c, p0, s0, rest, hinv, h1, h2, h3⟩
        | crash =>
          rw [hso] at hrun
          exact absurd hrun (by simp)
        | cont c3 =>
          rw [hso] at hrun
          exact ih (k + 1) c3 p (inv_step sys c c3 hh hc hinv hso) hrun
      · rw [if_neg htf] at hrun
        exact absurd hrun (by simp)

/-- Claim C9 (amended): for every successful search whose initial state is
non-empty (under the documented contracts of non-negative heuristic values
and non-negative rule costs), the returned sequence is non-empty, starts
with the initial state paired with no action, ends in a state satisfying
the goal predicate, and each subsequent state is the effect of a rule of
the set, named by the paired action, applied to the preceding state.  For
the empty initial state the result is the empty sequence instead (the
counterexample). -/
theorem C9_path_from_init_to_goal (sys : System) (fuel : ℕ)
    (p : List (State × Option String))
    (hh : ∀ s, 0 ≤ sys.h s) (hc : ∀ r ∈ sys.recipes, 0 ≤ r.time)
    (hne : sys.init ≠ [])
    (hfound : search sys fuel = .found p) :
    p ≠ [] ∧ p.head? = some (sys.init, none) ∧
      (∃ last, p.getLast? = some last ∧ is_goal sys.goal last.1 = some true) ∧
      List.Chain' (EdgeStep sys.recipes) p := by
  obtain ⟨c2, p0, s0, rest, hinv2, hpop, hgoal, hrw⟩ :=
    runSearch_found sys hh hc fuel 0 (cfg0 sys) p (inv_cfg0 sys) hfound
  obtain ⟨hmem, _, _⟩ := popMin_inversion c2.queue (p0, s0) rest hpop
  have hdom := hinv2.queue_dom p0 s0 hmem
  obtain ⟨d0, hd0⟩ := Option.isSome_iff_exists.mp hdom
  obtain ⟨pfx, av, hout, hpne, hhead, _, hlast, hchain⟩ :=
    reconWalk_spec sys c2 hinv2 hne (c2.prev.length + 1) s0 [] p d0 hd0 hrw
  rw [List.append_nil] at hout
  subst hout
  exact ⟨hpne, hhead, ⟨(s0, av), hlast, hgoal⟩, hchain⟩

/-- The path the claim C3 exhibit's search returns. -/
def c3path : List (State × Option String) :=
  match search sysC3 10 with
  | .found p => p
  | _ => []

/-- Claim C9 witness: the amended theorem applied to the concrete run of
the exhibit system, hypotheses discharged by computation. -/
theorem C9_path_witness :
    search sysC3 10 = .found c3path ∧
      (c3path ≠ [] ∧ c3path.head? = some (sysC3.init, none) ∧
        (∃ last, c3path.getLast? = some last ∧
          is_goal sysC3.goal last.1 = some true) ∧
        List.Chain' (EdgeStep sysC3.recipes) c3path) :=
  ⟨by decide,
    C9_path_from_init_to_goal sysC3 10 c3path (fun _ => le_refl 0)
      (by decide) (by decide) (by decide)⟩

theorem popMin_singleton (e : Prio × State) : popMin [e] = some (e, []) := by
  simp [popMin, minEntry, eraseFirst]

/-- Claim C10: when the initial state is the empty mapping and satisfies the
goal, the reconstruction loop `while current_state:` never runs (the empty
dictionary is falsy), so `search` returns the empty list, not the
one-element path; for every non-empty initial state a successful search's
path does begin with the initial state (paired with no action). -/
theorem C10_empty_init_empty_path :
    (∀ (sys : System) (fuel : ℕ), sys.init = [] →
      is_goal sys.goal [] = some true → sys.tf 0 < sys.limit →
      search sys (fuel + 1) = .found [] ∧
        search sys (fuel + 1) ≠ .found [(sys.init, none)]) ∧
    (∀ (sys : System) (fuel : ℕ) (p : List (State × Option String)),
      (∀ s, 0 ≤ sys.h s) → (∀ r ∈ sys.recipes, 0 ≤ r.time) →
      sys.init ≠ [] → search sys fuel = .found p →
      p.head? = some (sys.init, none)) := by
  constructor
  · intro sys fuel hinit hgoal htf
    have hso : stepOnce sys (cfg0 sys) = .found [] := by
      have hpop : popMin (cfg0 sys).queue = some ((0, sys.init), []) :=
        popMin_singleton (0, sys.init)
      simp only [stepOnce, hpop]
      rw [hinit, hgoal]
      simp [reconWalk]
    have hfound : search sys (fuel + 1) = .found [] := by
      simp only [search, runSearch]
      rw [if_neg (by simp [cfg0] : ¬ ((cfg0 sys).queue = []))]
      rw [if_pos htf, hso]
    refine ⟨hfound, ?_⟩
    rw [hfound]
    intro hcontra
    have := SearchResult.found.inj hcontra
    exact List.noConfusion this
  · intro sys fuel p hh hc hne hfound
    obtain ⟨c2, p0, s0, rest, hinv2, hpop, hgoal, hrw⟩ :=
      runSearch_found sys hh hc fuel 0 (cfg0 sys) p (inv_cfg0 sys) hfound
    obtain ⟨hmem, _, _⟩ := popMin_inversion c2.queue (p0, s0) rest hpop
    obtain ⟨d0, hd0⟩ :=
      Option.isSome_iff_exists.mp (hinv2.queue_dom p0 s0 hmem)
    obtain ⟨pfx, av, hout, hpne, hhead, _, _, _⟩ :=
      reconWalk_spec sys c2 hinv2 hne (c2.prev.length + 1) s0 [] p d0 hd0 hrw
    rw [List.append_nil] at hout
    rw [hout]
    exact hhead

/-- Claim C10 witness: both parts of the theorem applied at concrete
systems — the empty-vocabulary system for the empty case and the exhibit
system for the non-empty case — hypotheses discharged by computation. -/
theorem C10_empty_init_witness :
    (search sysEmpty 2 = .found [] ∧
      search sysEmpty 2 ≠ .found [(sysEmpty.init, none)]) ∧
      c3path.head? = some (sysC3.init, none) :=
  ⟨C10_empty_init_empty_path.1 sysEmpty 1 rfl rfl (by decide),
    C10_empty_init_empty_path.2 sysC3 10 c3path (fun _ => le_refl 0)
      (by decide) (by decide) (by decide)⟩

theorem runSeq_cons_inv (r : Recipe) (rest : List Recipe) (y z : State)
    (h : runSeq (r :: rest) y = some z) :
    check r y = some true ∧ ∃ y2, effect r y = some y2 ∧ runSeq rest y2 = some z := by
  simp only [runSeq] at h
  cases hc : check r y with
  | none => rw [hc] at h; exact absurd h (by simp)
  | some b =>
    rw [hc] at h
    cases b with
    | false => exact absurd h (by simp)
    | true =>
      cases he : effect r y with
      | none => rw [he] at h; exact absurd h (by simp)
      | some y2 =>
        rw [he] at h
        exact ⟨rfl, y2, rfl, h⟩

/-- The extra invariants the zero-heuristic (uniform-cost) runs maintain:
every recorded cost is realized by an actual feasible action sequence, and
every feasible sequence is covered by the frontier — some queue entry sits
on it with priority at most its prefix cost — unless its end state was
already expanded. -/
structure InvZ (sys : System) (c : Cfg) : Prop where
  base : Inv sys c
  reach : ∀ s d, lookupA c.dist s = some d →
    ∃ rs, (∀ r ∈ rs, r ∈ sys.recipes) ∧ runSeq rs sys.init = some s ∧
      ((sumTimes rs : ℤ) : Prio) = d
  frontier : ∀ rs z, (∀ r ∈ rs, r ∈ sys.recipes) →
    runSeq rs sys.init = some z →
    (∃ pw w rsA rsB, (pw, w) ∈ c.queue ∧ rs = rsA ++ rsB ∧
      runSeq rsA sys.init = some w ∧ pw ≤ ((sumTimes rsA : ℤ) : Prio)) ∨
    (∃ q, (q, z) ∈ c.expLog)

theorem invZ_cfg0 (sys : System) : InvZ sys (cfg0 sys) := by
  refine ⟨inv_cfg0 sys, ?_, ?_⟩
  · intro s d hsd
    have hs : (lookupA (cfg0 sys).dist s).isSome := by rw [hsd]; rfl
    have heq : s = sys.init := by
      simp only [cfg0] at hs
      rw [lookupA_singleton] at hs
      by_cases h : sys.init = s
      · exact h.symm
      · rw [if_neg h] at hs; simp at hs
    subst heq
    rw [(inv_cfg0 sys).init_dist] at hsd
    cases hsd
    exact ⟨[], by simp, rfl, by simp [sumTimes]⟩
  · intro rs z _ _
    left
    refine ⟨0, sys.init, [], rs, by simp [cfg0], rfl, rfl, ?_⟩
    simp [sumTimes]

theorem frontier_descent (sys : System) (c : Cfg) (hinv : Inv sys c)
    (hz : ∀ s, sys.h s = 0) (hc : ∀ r ∈ sys.recipes, 0 ≤ r.time) :
    ∀ (rs2 : List Recipe) (y z : State) (rs1 : List Recipe) (dy : Prio),
      (∀ r ∈ rs2, r ∈ sys.recipes) → (∀ r ∈ rs1, r ∈ sys.recipes) →
      runSeq rs1 sys.init = some y → runSeq rs2 y = some z →
      lookupA c.dist y = some dy → dy ≤ ((sumTimes rs1 : ℤ) : Prio) →
      (∃ pw w rsA rsB, (pw, w) ∈ c.queue ∧ rs1 ++ rs2 = rsA ++ rsB ∧
        runSeq rsA sys.init = some w ∧ pw ≤ ((sumTimes rsA : ℤ) : Prio)) ∨
      (∃ q, (q, z) ∈ c.expLog) := by
  intro rs2
  induction rs2 with
  | nil =>
    intro y z rs1 dy _ hm1 hr1 hr2 hdy hle
    have hyz : y = z := by
      simp only [runSeq] at hr2
      exact Option.some.inj hr2
    subst hyz
    rcases hinv.dist_mem y dy hdy with hq | hl | ⟨hsi, hdz, hini⟩
    · rw [hz y, add_zero] at hq
      exact Or.inl ⟨dy, y, rs1, [], hq, rfl, hr1, hle⟩
    · rw [hz y, add_zero] at hl
      exact Or.inr ⟨dy, hl⟩
    · subst hsi
      rcases hini with hqi | hli
      · refine Or.inl ⟨0, sys.init, [], rs1 ++ [], hqi, rfl, rfl, ?_⟩
        simp [sumTimes]
      · exact Or.inr ⟨0, hli⟩
  | cons r rest ih =>
    intro y z rs1 dy hm2 hm1 hr1 hr2 hdy hle
    obtain ⟨hchk, y2, heff, hrest⟩ := runSeq_cons_inv r rest y z hr2
    have hrmem : r ∈ sys.recipes := hm2 r (List.mem_cons_self ..)
    have hsum1 : (0 : Prio) ≤ ((sumTimes rs1 : ℤ) : Prio) := by
      have h1 : (0 : ℤ) ≤ sumTimes rs1 :=
        sumTimes_nonneg rs1 (fun r2 hr2m => hc r2 (hm1 r2 hr2m))
      exact_mod_cast h1
    have hstep : ∀ q0 : Prio, (q0, y) ∈ c.expLog → q0 ≤ ((sumTimes rs1 : ℤ) : Prio) →
        (∃ pw w rsA rsB, (pw, w) ∈ c.queue ∧ rs1 ++ (r :: rest) = rsA ++ rsB ∧
          runSeq rsA sys.init = some w ∧ pw ≤ ((sumTimes rsA : ℤ) : Prio)) ∨
        (∃ q, (q, z) ∈ c.expLog) := by
      intro q0 hl hq0le
      obtain ⟨_, es, hgr, hbound⟩ := hinv.logged q0 y hl
      obtain ⟨s2, heff2, hmemes⟩ :=
        graphGen_complete sys.recipes y es hgr r hrmem hchk
      rw [heff] at heff2
      have hs2 : s2 = y2 := (Option.some.inj heff2).symm
      subst hs2
      obtain ⟨d2, hd2, hd2le⟩ := hbound (r.name, s2, r.time) hmemes
      have hd2le2 : d2 ≤ ((sumTimes (rs1 ++ [r]) : ℤ) : Prio) := by
        rw [sumTimes_append]
        have : ((sumTimes rs1 + sumTimes [r] : ℤ) : Prio) =
            ((sumTimes rs1 : ℤ) : Prio) + ((sumTimes [r] : ℤ) : Prio) := by
          push_cast
          rfl
        rw [this]
        have hsr : ((sumTimes [r] : ℤ) : Prio) = ((r.time : ℤ) : Prio) := by
          simp [sumTimes]
        rw [hsr]
        calc d2 ≤ q0 + ((r.time : ℤ) : Prio) := hd2le
          _ ≤ ((sumTimes rs1 : ℤ) : Prio) + ((r.time : ℤ) : Prio) :=
            add_le_add_right hq0le _
      have hrun1r : runSeq (rs1 ++ [r]) sys.init = some s2 := by
        rw [runSeq_append, hr1]
        simp only [runSeq, hchk, heff]
      have hm1r : ∀ r2 ∈ rs1 ++ [r], r2 ∈ sys.recipes := by
        intro r2 hr2m
        rcases List.mem_append.mp hr2m with h1 | h2
        · exact hm1 r2 h1
        · rw [List.mem_singleton.mp h2]
          exact hrmem
      have hm2r : ∀ r2 ∈ rest, r2 ∈ sys.recipes :=
        fun r2 hr2m => hm2 r2 (List.mem_cons_of_mem _ hr2m)
      rcases ih s2 z (rs1 ++ [r]) d2 hm2r hm1r hrun1r hrest hd2 hd2le2 with
        ⟨pw, w, rsA, rsB, k1, k2, k3, k4⟩ | hdone
      · refine Or.inl ⟨pw, w, rsA, rsB, k1, ?_, k3, k4⟩
        rw [← k2]
        simp
      · exact Or.inr hdone
    rcases hinv.dist_mem y dy hdy with hq | hl | ⟨hsi, hdz, hini⟩
    · rw [hz y, add_zero] at hq
      exact Or.inl ⟨dy, y, rs1, r :: rest, hq, rfl, hr1, hle⟩
    · rw [hz y, add_zero] at hl
      exact hstep dy hl hle
    · subst hsi
      rcases hini with hqi | hli
      · refine Or.inl ⟨0, sys.init, [], rs1 ++ (r :: rest), hqi, rfl, rfl, ?_⟩
        simp [sumTimes]
      · exact hstep 0 hli hsum1

theorem invZ_step (sys : System) (c c2 : Cfg) (hz : ∀ s, sys.h s = 0)
    (hc : ∀ r ∈ sys.recipes, 0 ≤ r.time)
    (hinv : InvZ sys c) (hstep : stepOnce sys c = .cont c2) : InvZ sys c2 := by
  have hh : ∀ s, 0 ≤ sys.h s := fun s => le_of_eq (hz s).symm
  have hbase2 : Inv sys c2 := inv_step sys c c2 hh hc hinv.base hstep
  simp only [stepOnce] at hstep
  cases hpop : popMin c.queue with
  | none => rw [hpop] at hstep; exact absurd hstep (by simp)
  | some er =>
    obtain ⟨⟨p0, s0⟩, rest⟩ := er
    rw [hpop] at hstep
    dsimp only at hstep
    cases hgoal : is_goal sys.goal s0 with
    | none => rw [hgoal] at hstep; exact absurd hstep (by simp)
    | some b =>
      rw [hgoal] at hstep
      cases b with
      | true =>
        dsimp only at hstep
        exfalso
        cases hrw : reconWalk c.prev c.acts (c.prev.length + 1) (some s0) [] with
        | none => rw [hrw] at hstep; exact absurd hstep (by simp)
        | some path => rw [hrw] at hstep; exact absurd hstep (by simp)
      | false =>
        dsimp only at hstep
        cases hgr : graphGen sys.recipes s0 with
        | none => rw [hgr] at hstep; exact absurd hstep (by simp)
        | some es =>
          rw [hgr] at hstep
          dsimp only at hstep
          cases hstep
          obtain ⟨hmem, hmin, hperm⟩ := popMin_inversion c.queue (p0, s0) rest hpop
          have hqv : ∀ f, f ∈ c.queue ↔ f = (p0, s0) ∨ f ∈ rest := by
            intro f
            rw [hperm.mem_iff]
            exact List.mem_cons
          have hp0 : 0 ≤ p0 := hinv.base.queue_nonneg p0 s0 hmem
          obtain ⟨d0, hd0, hge⟩ := hinv.base.queue_ge p0 s0 hmem
          have hd0p : d0 ≤ p0 := dist_le_of_queue_ge sys p0 s0 d0 hh hge
          have hcostP : ∀ e ∈ es, (0 : Prio) ≤ (e.2.2 : Prio) := by
            intro e he
            obtain ⟨r, hr, _, ht, _, _⟩ := graphGen_mem sys.recipes s0 es hgr e he
            have : (0 : ℤ) ≤ e.2.2 := ht ▸ hc r hr
            exact_mod_cast this
          by_cases hstale : d0 + sys.h s0 < p0
          · -- stale pop: the working set only loses the popped entry
            obtain ⟨hgoalf, es3, hgr3, hfrozen⟩ :=
              stale_pop_no_relax sys c hinv.base hh p0 s0 rest hpop d0 hd0 hstale
            rw [hgr] at hgr3
            cases hgr3
            rw [foldRelax_frozen sys.h p0 s0
              { c with queue := rest, expLog := (p0, s0) :: c.expLog } es
              hfrozen]
            have hinvF : Inv sys ({ c with
                queue := rest
                expLog := (p0, s0) :: c.expLog
                explored := c.explored + es.length } : Cfg) := by
              rw [foldRelax_frozen sys.h p0 s0
                { c with queue := rest, expLog := (p0, s0) :: c.expLog } es
                hfrozen] at hbase2
              exact hbase2
            refine ⟨hinvF, ?_, ?_⟩
            · intro s d hsd
              exact hinv.reach s d hsd
            · intro rs z hm hr
              rcases hinv.frontier rs z hm hr with
                ⟨pw, w, rsA, rsB, k1, k2, k3, k4⟩ | ⟨q, hq⟩
              · rcases (hqv _).mp k1 with heq2 | hr2
                · -- the covering entry is the popped one: walk down the path
                  have hw : w = s0 := congrArg Prod.snd heq2
                  have hpwp : pw = p0 := congrArg Prod.fst heq2
                  rw [hw] at k3
                  rw [hpwp] at k4
                  have hrB : runSeq rsB s0 = some z := by
                    rw [k2, runSeq_append, k3] at hr
                    exact hr
                  have hmB : ∀ r2 ∈ rsB, r2 ∈ sys.recipes := by
                    intro r2 hr2m
                    exact hm r2 (k2 ▸ List.mem_append_right _ hr2m)
                  have hmA : ∀ r2 ∈ rsA, r2 ∈ sys.recipes := by
                    intro r2 hr2m
                    exact hm r2 (k2 ▸ List.mem_append_left _ hr2m)
                  have hdying : lookupA ({ c with
                      queue := rest
                      expLog := (p0, s0) :: c.expLog
                      explored := c.explored + es.length } : Cfg).dist s0 =
                      some d0 := hd0
                  rcases frontier_descent sys _ hinvF hz hc rsB s0 z rsA d0
                      hmB hmA k3 hrB hdying (le_trans hd0p k4) with
                    ⟨pw2, w2, rsA2, rsB2, m1, m2, m3, m4⟩ | hdone
                  · exact Or.inl ⟨pw2, w2, rsA2, rsB2, m1, by rw [k2, m2], m3, m4⟩
                  · exact Or.inr hdone
                · exact Or.inl ⟨pw, w, rsA, rsB, hr2, k2, k3, k4⟩
              · exact Or.inr ⟨q, List.mem_cons_of_mem _ hq⟩
          · -- non-stale pop
            have hp0eq : p0 = d0 := by
              rcases hge with h1 | ⟨_, hpz, hdz⟩
              · rw [hz s0, add_zero] at h1 hstale
                exact le_antisymm (not_lt.mp hstale) h1
              · rw [hpz, hdz]
            have F := foldRelax_spec sys.h p0 s0
              { c with queue := rest, expLog := (p0, s0) :: c.expLog } es
            obtain ⟨Flog, Fexp, Fmono, Ftrip, Fbound, Fqueue⟩ := F
            dsimp only at Flog Fexp Fmono Ftrip Fbound Fqueue
            set y := List.foldl (relaxOne sys.h p0 s0)
              { c with queue := rest, expLog := (p0, s0) :: c.expLog } es with hy
            obtain ⟨pushes, hqeq, hpush⟩ := Fqueue
            have hfixS0 : lookupA y.dist s0 = some d0 := by
              rcases Ftrip s0 with ⟨h1, _, _⟩ | ⟨e, he, hts, h1, _, _, _, hst⟩
              · rw [h1]; exact hd0
              · exfalso
                rcases hst with hnone | ⟨dOld, hdOld, hlt⟩
                · rw [hd0] at hnone; exact Option.noConfusion hnone
                · rw [hd0] at hdOld
                  cases hdOld
                  have : p0 ≤ p0 + (e.2.2 : Prio) :=
                    le_add_of_nonneg_right (hcostP e he)
                  exact absurd (lt_of_lt_of_le hlt hd0p) (not_lt.mpr this)
            refine ⟨hbase2, ?_, ?_⟩
            · intro s d hsd
              rcases Ftrip s with ⟨h1, _, _⟩ | ⟨e, he, hts, h1, _, _, _, _⟩
              · rw [h1] at hsd
                exact hinv.reach s d hsd
              · rw [h1] at hsd
                cases hsd
                obtain ⟨rs0, hm0, hr0, hs0⟩ := hinv.reach s0 d0 hd0
                obtain ⟨r, hr, hrn, hrt, hrc, hre⟩ :=
                  graphGen_mem sys.recipes s0 es hgr e he
                refine ⟨rs0 ++ [r], ?_, ?_, ?_⟩
                · intro r2 hr2m
                  rcases List.mem_append.mp hr2m with h1m | h2m
                  · exact hm0 r2 h1m
                  · rw [List.mem_singleton.mp h2m]
                    exact hr
                · rw [runSeq_append, hr0]
                  simp only [runSeq, hrc, hre, hts]
                · rw [sumTimes_append, hp0eq]
                  have hsr : sumTimes [r] = r.time := by simp [sumTimes]
                  rw [hsr, hrt]
                  push_cast
                  rw [hs0]
            · intro rs z hm hr
              rcases hinv.frontier rs z hm hr with
                ⟨pw, w, rsA, rsB, k1, k2, k3, k4⟩ | ⟨q, hq⟩
              · rcases (hqv _).mp k1 with heq2 | hr2
                · have hw : w = s0 := congrArg Prod.snd heq2
                  have hpwp : pw = p0 := congrArg Prod.fst heq2
                  rw [hw] at k3
                  rw [hpwp] at k4
                  have hrB : runSeq rsB s0 = some z := by
                    rw [k2, runSeq_append, k3] at hr
                    exact hr
                  have hmB : ∀ r2 ∈ rsB, r2 ∈ sys.recipes := by
                    intro r2 hr2m
                    exact hm r2 (k2 ▸ List.mem_append_right _ hr2m)
                  have hmA : ∀ r2 ∈ rsA, r2 ∈ sys.recipes := by
                    intro r2 hr2m
                    exact hm r2 (k2 ▸ List.mem_append_left _ hr2m)
                  rcases frontier_descent sys y hbase2 hz hc rsB s0 z rsA d0
                      hmB hmA k3 hrB hfixS0 (le_trans hd0p k4) with
                    ⟨pw2, w2, rsA2, rsB2, m1, m2, m3, m4⟩ | hdone
                  · exact Or.inl ⟨pw2, w2, rsA2, rsB2, m1, by rw [k2, m2], m3, m4⟩
                  · exact Or.inr hdone
                · refine Or.inl ⟨pw, w, rsA, rsB, ?_, k2, k3, k4⟩
                  rw [hqeq]
                  exact List.mem_append_left _ hr2
              · refine Or.inr ⟨q, ?_⟩
                rw [Flog]
                exact List.mem_cons_of_mem _ hq

theorem runSearch_foundZ (sys : System) (hz : ∀ s, sys.h s = 0)
    (hc : ∀ r ∈ sys.recipes, 0 ≤ r.time) :
    ∀ (fuel k : ℕ) (c : Cfg) (p : List (State × Option String)),
      InvZ sys c → runSearch sys fuel k c = .found p →
      ∃ c2 p0 s0 rest, InvZ sys c2 ∧
        popMin c2.queue = some ((p0, s0), rest) ∧
        is_goal sys.goal s0 = some true ∧
        reconWalk c2.prev c2.acts (c2.prev.length + 1) (some s0) [] = some p := by
  intro fuel
  induction fuel with
  | zero =>
    intro k c p _ hrun
    simp only [runSearch] at hrun
    exact SearchResult.noConfusion hrun
  | succ fuel ih =>
    intro k c p hinv hrun
    simp only [runSearch] at hrun
    by_cases hq : c.queue = []
    · rw [if_pos hq] at hrun
      exact absurd hrun (by simp)
    · rw [if_neg hq] at hrun
      by_cases htf : sys.tf k < sys.limit
      · rw [if_pos htf] at hrun
        cases hso : stepOnce sys c with
        | found p2 =>
          rw [hso] at hrun
          simp only at hrun
          cases hrun
          obtain ⟨p0, s0, rest, h1, h2, h3⟩ := stepOnce_found_inv sys c p hso
          exact ⟨c, p0, s0, rest, hinv, h1, h2, h3⟩
        | crash =>
          rw [hso] at hrun
          exact absurd hrun (by simp)
        | cont c3 =>
          rw [hso] at hrun
          exact ih (k + 1) c3 p (invZ_step sys c c3 hz hc hinv hso) hrun
      · rw [if_neg htf] at hrun
        exact absurd hrun (by simp)

/-- Total cost recoverable from a returned path: the sum of the `Time` of
the rule named by each non-initial element's action (exactly what the
presenter in `__main__` sums). -/
def pathCostN (recipes : List Recipe) :
    List (State × Option String) → Option ℤ
  | [] => some 0
  | (_, none) :: rest => pathCostN recipes rest
  | (_, some a) :: rest =>
    match recipes.find? (fun r => r.name == a) with
    | none => none
    | some r => (pathCostN recipes rest).map (fun x => r.time + x)

theorem find?_name_unique (recipes : List Recipe)
    (hnames : (recipes.map Recipe.name).Nodup) (r : Recipe)
    (hr : r ∈ recipes) :
    recipes.find? (fun r2 => r2.name == r.name) = some r := by
  induction recipes with
  | nil => simp at hr
  | cons r0 tl ih =>
    simp only [List.map_cons, List.nodup_cons] at hnames
    by_cases hname : r0.name = r.name
    · have hre : r0 = r := by
        rcases List.mem_cons.mp hr with h1 | h2
        · exact h1.symm
        · exfalso
          exact hnames.1 (hname ▸ List.mem_map_of_mem Recipe.name h2)
      subst hre
      simp [List.find?]
    · have hr2 : r ∈ tl := by
        rcases List.mem_cons.mp hr with h1 | h2
        · exact absurd (congrArg Recipe.name h1.symm) hname
        · exact h2
      simp only [List.find?]
      have hb : (r0.name == r.name) = false := by
        exact beq_false_of_ne hname
      rw [hb]
      exact ih hnames.2 hr2

theorem pathCostN_concat (recipes : List Recipe)
    (l : List (State × Option String)) (s : State) (a : String) (r : Recipe)
    (hfind : recipes.find? (fun r2 => r2.name == a) = some r) (T : ℤ)
    (hl : pathCostN recipes l = some T) :
    pathCostN recipes (l ++ [(s, some a)]) = some (T + r.time) := by
  induction l generalizing T with
  | nil =>
    simp only [pathCostN] at hl
    cases hl
    simp only [List.nil_append, pathCostN, hfind, Option.map_some']
    rw [add_zero, zero_add]
  | cons hd tl ih =>
    cases hd with
    | mk s2 a2 =>
      cases a2 with
      | none =>
        simp only [pathCostN] at hl ⊢
        exact ih T hl
      | some a3 =>
        simp only [pathCostN] at hl ⊢
        cases hf3 : recipes.find? (fun r2 => r2.name == a3) with
        | none => rw [hf3] at hl; exact absurd hl (by simp)
        | some r3 =>
          rw [hf3] at hl
          cases hc3 : pathCostN recipes tl with
          | none => rw [hc3] at hl; simp at hl
          | some T3 =>
            rw [hc3] at hl
            simp only [Option.map_some'] at hl
            cases hl
            dsimp only
            simp only [List.append_eq]
            rw [ih T3 hc3]
            simp only [Option.map_some']
            rw [add_assoc]

theorem reconWalk_cost (sys : System) (c : Cfg) (hinv : Inv sys c)
    (hz : ∀ s, sys.h s = 0) (hne : sys.init ≠ [])
    (hnames : (sys.recipes.map Recipe.name).Nodup) :
    ∀ (fuel : ℕ) (s : State) (acc out : List (State × Option String))
      (d : Prio),
      lookupA c.dist s = some d →
      reconWalk c.prev c.acts fuel (some s) acc = some out →
      ∃ pfx T, out = pfx ++ acc ∧ pathCostN sys.recipes pfx = some T ∧
        ((T : ℤ) : Prio) = d := by
  intro fuel
  induction fuel with
  | zero =>
    intro s acc out d hd hw
    exfalso
    have hsne : s ≠ [] :=
      dist_state_ne_nil sys c hinv hne s (by rw [hd]; rfl)
    have hemp : s.isEmpty = false := by
      cases s with
      | nil => exact absurd rfl hsne
      | cons a l => rfl
    simp [reconWalk, truthy, hemp] at hw
  | succ fuel ih =>
    intro s acc out d hd hw
    have hsne : s ≠ [] :=
      dist_state_ne_nil sys c hinv hne s (by rw [hd]; rfl)
    have hemp : s.isEmpty = false := by
      cases s with
      | nil => exact absurd rfl hsne
      | cons a l => rfl
    simp only [reconWalk, hemp, Bool.false_eq_true, if_false] at hw
    have hprevS : (lookupA c.prev s).isSome :=
      (hinv.dom_prev s).mp (by rw [hd]; rfl)
    have hactsS : (lookupA c.acts s).isSome :=
      (hinv.dom_acts s).mp (by rw [hd]; rfl)
    obtain ⟨pv, hpv⟩ := Option.isSome_iff_exists.mp hprevS
    obtain ⟨av, hav⟩ := Option.isSome_iff_exists.mp hactsS
    rw [hpv, hav] at hw
    dsimp only at hw
    cases pv with
    | none =>
      have hsinit : s = sys.init := hinv.prev_none s hpv
      subst hsinit
      have havn : av = none := by
        rw [hinv.init_acts] at hav
        exact (Option.some.inj hav).symm
      subst havn
      rw [reconWalk_none] at hw
      cases hw
      have hdz : d = 0 := by
        rw [hinv.init_dist] at hd
        exact (Option.some.inj hd).symm
      subst hdz
      exact ⟨[(sys.init, none)], 0, rfl, rfl, rfl⟩
    | some u =>
      obtain ⟨a, cq, d2, du, hacts2, hedge, hdist2, hdu, hdisj, _⟩ :=
        hinv.link s u hpv
      have hd2d : d2 = d := by
        rw [hd] at hdist2
        exact (Option.some.inj hdist2).symm
      subst hd2d
      have hava : av = some a := by
        rw [hacts2] at hav
        exact (Option.some.inj hav).symm
      have hddu : d2 = du + (cq : Prio) := by
        rcases hdisj with h1 | ⟨hui, h2⟩
        · rw [h1, hz u, add_zero]
        · rw [hui] at hdu
          rw [hinv.init_dist] at hdu
          have : du = 0 := (Option.some.inj hdu).symm
          rw [h2, this, zero_add]
      obtain ⟨pfx_u, T_u, hout, hcost_u, hcoe_u⟩ :=
        ih u ((s, av) :: acc) out du hdu hw
      obtain ⟨r, hr, hrn, hrt, _, _⟩ := hedge
      have hfind : sys.recipes.find? (fun r2 => r2.name == a) = some r := by
        rw [← hrn]
        exact find?_name_unique sys.recipes hnames r hr
      refine ⟨pfx_u ++ [(s, some a)], T_u + r.time, ?_, ?_, ?_⟩
      · rw [hout, hava]
        simp
      · exact pathCostN_concat sys.recipes pfx_u s a r hfind T_u hcost_u
      · rw [hddu]
        push_cast
        rw [hcoe_u, hrt]

/-- Claim C1: with a heuristic that returns `0` for every state and
non-negative rule costs, a path returned by `search` has total cost (the
sum of the `Time` of the rules named by its actions) equal to the minimum
achievable cost over all feasible action sequences from the initial state
to a state satisfying the goal predicate: its cost is achieved by such a
sequence, and no such sequence costs less.  (Rule names are pairwise
distinct, as the spec's data model requires, so each action names one
rule.) -/
theorem C1_zero_heuristic_is_uniform_cost_optimal (sys : System) (fuel : ℕ)
    (p : List (State × Option String))
    (hz : ∀ s, sys.h s = 0)
    (hc : ∀ r ∈ sys.recipes, 0 ≤ r.time)
    (hnames : (sys.recipes.map Recipe.name).Nodup)
    (hfound : search sys fuel = .found p) :
    ∃ T : ℤ, pathCostN sys.recipes p = some T ∧
      (∃ rs z, (∀ r ∈ rs, r ∈ sys.recipes) ∧ runSeq rs sys.init = some z ∧
        is_goal sys.goal z = some true ∧ sumTimes rs = T) ∧
      (∀ rs z, (∀ r ∈ rs, r ∈ sys.recipes) → runSeq rs sys.init = some z →
        is_goal sys.goal z = some true → T ≤ sumTimes rs) := by
  have hh : ∀ s, 0 ≤ sys.h s := fun s => le_of_eq (hz s).symm
  obtain ⟨c2, p0, s0, rest, hinv2, hpop, hgoal, hrw⟩ :=
    runSearch_foundZ sys hz hc fuel 0 (cfg0 sys) p (invZ_cfg0 sys) hfound
  obtain ⟨hmem, hmin, _⟩ := popMin_inversion c2.queue (p0, s0) rest hpop
  obtain ⟨d0, hd0, hge⟩ := hinv2.base.queue_ge p0 s0 hmem
  have hd0p : d0 ≤ p0 := dist_le_of_queue_ge sys p0 s0 d0 hh hge
  by_cases hinit : sys.init = []
  · -- the degenerate empty-vocabulary case: the path is empty, cost 0
    have hs0nil : s0 = [] := by
      have hk := hinv2.base.keys_eq s0 (by rw [hd0]; rfl)
      rw [hinit] at hk
      simp only [List.map_nil] at hk
      exact List.map_eq_nil_iff.mp hk
    have hpnil : p = [] := by
      rw [hs0nil] at hrw
      simp [reconWalk] at hrw
      exact hrw
    subst hpnil
    refine ⟨0, rfl, ⟨[], sys.init, by simp, rfl, ?_, by simp [sumTimes]⟩, ?_⟩
    · rw [hinit, ← hs0nil]
      exact hgoal
    · intro rs z hm _ _
      exact sumTimes_nonneg rs (fun r hr => hc r (hm r hr))
  · obtain ⟨pfx, T, hout, hcost, hcoe⟩ :=
      reconWalk_cost sys c2 hinv2.base hz hinit hnames
        (c2.prev.length + 1) s0 [] p d0 hd0 hrw
    rw [List.append_nil] at hout
    subst hout
    refine ⟨T, hcost, ?_, ?_⟩
    · obtain ⟨rs0, hm0, hr0, hsum0⟩ := hinv2.reach s0 d0 hd0
      refine ⟨rs0, s0, hm0, hr0, hgoal, ?_⟩
      rw [← hcoe] at hsum0
      exact_mod_cast hsum0
    · intro rs z hm hr hgz
      rcases hinv2.frontier rs z hm hr with
        ⟨pw, w, rsA, rsB, k1, k2, k3, k4⟩ | ⟨q, hq⟩
      · have h1 : p0 ≤ pw := hmin (pw, w) k1
        have h2 : ((sumTimes rsA : ℤ) : Prio) ≤ ((sumTimes rs : ℤ) : Prio) := by
          rw [k2, sumTimes_append]
          have hB : (0 : ℤ) ≤ sumTimes rsB := by
            refine sumTimes_nonneg rsB (fun r hrm => hc r (hm r ?_))
            rw [k2]
            exact List.mem_append_right _ hrm
          have : sumTimes rsA ≤ sumTimes rsA + sumTimes rsB := by omega
          exact_mod_cast this
        have hchain : ((T : ℤ) : Prio) ≤ ((sumTimes rs : ℤ) : Prio) := by
          calc ((T : ℤ) : Prio) = d0 := hcoe
            _ ≤ p0 := hd0p
            _ ≤ pw := h1
            _ ≤ ((sumTimes rsA : ℤ) : Prio) := k4
            _ ≤ ((sumTimes rs : ℤ) : Prio) := h2
        exact_mod_cast hchain
      · have hgf := (hinv2.base.logged q z hq).1
        rw [hgz] at hgf
        simp at hgf

/-- Claim C1 witness: the theorem applied to the concrete exhibit run
(costs 10/1/2/20, optimal plan `toM; fastA; toG` of cost 23), hypotheses
discharged by computation. -/
theorem C1_zero_heuristic_witness :
    (∀ r ∈ sysC3.recipes, 0 ≤ r.time) ∧
      ∃ T : ℤ, pathCostN sysC3.recipes c3path = some T ∧
        (∃ rs z, (∀ r ∈ rs, r ∈ sysC3.recipes) ∧
          runSeq rs sysC3.init = some z ∧
          is_goal sysC3.goal z = some true ∧ sumTimes rs = T) ∧
        (∀ rs z, (∀ r ∈ rs, r ∈ sysC3.recipes) →
          runSeq rs sysC3.init = some z →
          is_goal sysC3.goal z = some true → T ≤ sumTimes rs) :=
  ⟨by decide,
    C1_zero_heuristic_is_uniform_cost_optimal sysC3 10 c3path
      (fun _ => rfl) (by decide) (by decide) (by decide)⟩
